import Mathlib

/-!
Verification development for the LinguaRelay session-lifecycle and
engine-pooling core.  The definitions below are shallow embeddings of the
TypeScript sources:

* `LinguaRelay.EnginePool` embeds `src/background/engines/engine-pool.ts`
  (`EnginePool.acquire`, `EnginePool.release` and the idle-disposal timer
  callback).  The JavaScript `Map<string, PoolEntry>` is modelled as an
  association list in insertion order; `setTimeout` handles are modelled as
  the absolute time at which the scheduled callback fires; `dispose()` calls
  on engine instances are logged in `disposedIds`.  Engine instances are
  identified by the order of their construction (`nextEngineId` plays the
  role of the factory: it is bumped exactly when `create()` runs).

* `LinguaRelay.SessionAudio` embeds the audio backpressure part of
  `src/background/session-manager.ts` (`TabSession.handleAudioChunk` and
  `TabSession.flushAudioQueue`).  The single-flight flush loop is modelled
  at the granularity of its suspension points: `handleAudioChunk` runs
  synchronously up to the first `await` of `pushAudio`, and a `resume`
  event models one `pushAudio` call settling.

* `LinguaRelay.Transcript` embeds `TabSession.handleAsrSegment`.

* `LinguaRelay.SessionLife` embeds `TabSession.dispose`, `TabSession.safePost`
  and `TabSession.handleSessionInit`; the bounded mutual recursion between
  `dispose` and `safePost` (a failing `postMessage` re-enters `dispose`)
  is made explicit with a fuel argument.

* `LinguaRelay.Manager` embeds `SessionManager.attachPort` and the registry
  bookkeeping (`onClosed`, `detachTab`).
-/

namespace LinguaRelay

namespace EnginePool

/-- One entry of the pool map, mirroring `PoolEntry<T>`: the engine instance
(identified by its construction index), its reference count, and the pending
idle-disposal timer (`some fireAt` models a scheduled `setTimeout` that will
fire at absolute time `fireAt`; `none` models `idleTimer: null`). -/
structure Entry where
  engineId : Nat
  refCount : Int
  idleTimer : Option Nat
  deriving DecidableEq, Repr

/-- The pool state: the `Map<string, PoolEntry>` in insertion order, the
next construction index (bumped exactly when the `create()` factory runs),
and the log of engine instances whose `dispose()` has been called. -/
structure PoolState where
  entries : List (String × Entry)
  nextEngineId : Nat
  disposedIds : List Nat
  deriving DecidableEq, Repr

/-- The empty pool (`new EnginePool(...)`). -/
def PoolState.empty : PoolState := ⟨[], 0, []⟩

/-- `Map.get`: first binding of the key. -/
def entryOf : List (String × Entry) → String → Option Entry
  | [], _ => none
  | (k2, e) :: rest, k => if k2 = k then some e else entryOf rest k

/-- `Map.set`: replace the binding in place, or append a fresh one. -/
def setEntry : List (String × Entry) → String → Entry → List (String × Entry)
  | [], k, e => [(k, e)]
  | (k2, e2) :: rest, k, e =>
      if k2 = k then (k, e) :: rest else (k2, e2) :: setEntry rest k e

/-- `Map.delete`: drop the binding of the key. -/
def removeEntry : List (String × Entry) → String → List (String × Entry)
  | [], _ => []
  | (k2, e2) :: rest, k =>
      if k2 = k then rest else (k2, e2) :: removeEntry rest k

/-- `EnginePool.acquire(key, create)`: on a hit, bump the refCount, clear a
pending idle timer and hand back the stored instance; on a miss, run the
factory (allocate `nextEngineId`) and store the fresh instance with
refCount 1.  Returns the new state and the returned engine instance. -/
def acquire (s : PoolState) (k : String) : PoolState × Nat :=
  match entryOf s.entries k with
  | some e =>
      ({ s with
          entries := setEntry s.entries k
            ({ e with refCount := e.refCount + 1, idleTimer := none }) },
        e.engineId)
  | none =>
      ({ s with
          entries := setEntry s.entries k
            ({ engineId := s.nextEngineId, refCount := 1, idleTimer := none }),
          nextEngineId := s.nextEngineId + 1 },
        s.nextEngineId)

/-- `EnginePool.release(key)` executed at absolute time `now` with idle
window `d` (`idleDisposeMs()`): decrement the refCount; when it drops to 0
(or below), schedule the idle-disposal timer for `now + d`. -/
def release (d now : Nat) (s : PoolState) (k : String) : PoolState :=
  match entryOf s.entries k with
  | none => s
  | some e =>
      let rc := e.refCount - 1
      if 0 < rc then
        { s with entries := setEntry s.entries k ({ e with refCount := rc }) }
      else
        { s with
            entries := setEntry s.entries k
              ({ e with refCount := rc, idleTimer := some (now + d) }) }

/-- The body of the `setTimeout` callback scheduled by `release`: re-read the
entry; if it is gone or has been re-acquired, do nothing; otherwise call
`dispose()` on the instance (logged) and delete the entry. -/
def fireTimer (s : PoolState) (k : String) : PoolState :=
  match entryOf s.entries k with
  | none => s
  | some e =>
      if 0 < e.refCount then s
      else
        { s with
            entries := removeEntry s.entries k,
            disposedIds := s.disposedIds ++ [e.engineId] }

/-- Keys whose scheduled timer is due at time `t`. -/
def dueKeys (t : Nat) (entries : List (String × Entry)) : List String :=
  (entries.filter fun p =>
    match p.2.idleTimer with
    | some ft => decide (ft ≤ t)
    | none => false).map Prod.fst

/-- The event loop delivering every timer callback that is due at time `t`
before the next pool operation runs. -/
def fireDue (t : Nat) (s : PoolState) : PoolState :=
  (dueKeys t s.entries).foldl fireTimer s

/-- Pool operations as observed by clients, tagged with the absolute time at
which they run.  `tick` is a pure passage of time (only due timers fire). -/
inductive Op where
  | acquire (k : String)
  | release (k : String)
  | tick
  deriving DecidableEq, Repr

/-- One timed step: due timers fire first, then the operation runs. -/
def stepAt (d : Nat) (s : PoolState) : Nat × Op → PoolState
  | (t, Op.acquire k) => (acquire (fireDue t s) k).1
  | (t, Op.release k) => release d t (fireDue t s) k
  | (t, Op.tick) => fireDue t s

/-- Run a timed trace of pool operations. -/
def run (d : Nat) (s : PoolState) : List (Nat × Op) → PoolState
  | [] => s
  | ev :: rest => run d (stepAt d s ev) rest

/-- An operation is well-matched in state `s` at time `t` when a `release(K)`
only runs while the entry for `K` exists with a positive refCount (every
release is matched by an earlier un-released acquire). -/
def validOp (s : PoolState) (t : Nat) : Op → Bool
  | Op.release k =>
      match entryOf (fireDue t s).entries k with
      | some e => decide (1 ≤ e.refCount)
      | none => false
  | _ => true

/-- Well-formed traces: timestamps are non-decreasing (starting from `t0`)
and every `release(K)` matches an un-released `acquire(K)`. -/
def validFrom (d : Nat) (s : PoolState) (t0 : Nat) : List (Nat × Op) → Bool
  | [] => true
  | (t, op) :: rest =>
      decide (t0 ≤ t) && validOp s t op &&
      validFrom d (stepAt d s (t, op)) t rest

/-- Engine instances currently held by the pool. -/
def idsOf (entries : List (String × Entry)) : List Nat :=
  entries.map fun p => p.2.engineId

/-- State well-formedness: at most one entry per key; a constructed instance
is held or disposed at most once; construction indices are below
`nextEngineId`; an entry with a positive refCount has no pending timer; and
refCounts never go negative. -/
def WF (s : PoolState) : Prop :=
  (s.entries.map Prod.fst).Nodup ∧
  (idsOf s.entries ++ s.disposedIds).Nodup ∧
  (∀ p ∈ s.entries, p.2.engineId < s.nextEngineId) ∧
  (∀ i ∈ s.disposedIds, i < s.nextEngineId) ∧
  (∀ p ∈ s.entries, 0 < p.2.refCount → p.2.idleTimer = none) ∧
  (∀ p ∈ s.entries, 0 ≤ p.2.refCount)

instance : DecidablePred WF := by
  intro s
  unfold WF
  infer_instance

/-- A concrete pool for the `acquire_spec` witness: one entry for key "a"
with refCount 0 and a pending timer, no entry for key "b". -/
def acquireWitnessPool : PoolState :=
  { entries := [("a", { engineId := 0, refCount := 0, idleTimer := some 7 })],
    nextEngineId := 1,
    disposedIds := [] }

/-- A concrete pool for the idle-eviction witness (Scenario B): key "k" just
released (refCount 0) with its idle timer scheduled for time 1000. -/
def scenarioBPool : PoolState :=
  { entries := [("k", { engineId := 0, refCount := 0, idleTimer := some 1000 })],
    nextEngineId := 1,
    disposedIds := [] }

/-- Scenario B as a timed trace with `engineIdleDisposeMs = 1000`: acquire
"k", release, reacquire at 500ms, release at 600ms, then idle past 1600ms. -/
def scenarioBTrace : List (Nat × Op) :=
  [(0, Op.acquire "k"), (0, Op.release "k"), (500, Op.acquire "k"),
    (600, Op.release "k"), (1700, Op.tick)]

end EnginePool

namespace SessionAudio

/-- Session runtime states (`SessionRuntimeStatus['state']`). -/
inductive SState where
  | idle
  | running
  | paused
  | error
  | closed
  deriving DecidableEq, Repr

/-- The audio-backpressure slice of `TabSession` state: the runtime state,
whether `settings` / `engines` are non-null, the settings snapshot's
`runtime.maxPendingAudioChunks`, the pending FIFO queue (chunks identified
by arrival index), the received/pushed/dropped counters, the single-flight
`flushingAudio` flag and the `isDisposed` flag. -/
structure AudioSession where
  state : SState
  settingsLoaded : Bool
  maxPendingAudioChunks : Nat
  enginesPresent : Bool
  pendingAudioChunks : List Nat
  droppedAudioChunks : Nat
  receivedAudioChunks : Nat
  pushedAudioChunks : Nat
  flushingAudio : Bool
  isDisposed : Bool
  deriving DecidableEq, Repr

/-- One pass of the `flushAudioQueue` while-loop up to its next suspension
point: if the loop condition (`pendingAudioChunks.length > 0 && engines &&
!isDisposed`) holds, `shift()` the head chunk and park on `await
engines.asr.pushAudio(chunk)`; otherwise the loop returns,
`handleAudioChunk` resumes past its `await` and clears `flushingAudio`. -/
def flushLoopStep (s : AudioSession) : AudioSession :=
  if s.pendingAudioChunks ≠ [] ∧ s.enginesPresent = true ∧ s.isDisposed = false then
    { s with pendingAudioChunks := s.pendingAudioChunks.tail }
  else
    { s with flushingAudio := false }

/-- `TabSession.handleAudioChunk` run synchronously up to its first
suspension point: ignore the chunk outside `running` or before settings or
engines exist; drop it (counting) when the queue already holds
`maxPendingAudioChunks`; otherwise append it and, if no flush is in flight,
start the flush loop. -/
def handleAudioChunk (s : AudioSession) (c : Nat) : AudioSession :=
  if s.state ≠ SState.running ∨ s.settingsLoaded = false then s
  else if s.enginesPresent = false then s
  else if s.maxPendingAudioChunks ≤ s.pendingAudioChunks.length then
    { s with droppedAudioChunks := s.droppedAudioChunks + 1 }
  else
    let s1 := { s with
      receivedAudioChunks := s.receivedAudioChunks + 1,
      pendingAudioChunks := s.pendingAudioChunks ++ [c] }
    if s1.flushingAudio = false then
      flushLoopStep { s1 with flushingAudio := true }
    else s1

/-- An in-flight `pushAudio` call settling (resolving when `ok`, rejecting
otherwise, in which case the failure is logged and the loop continues);
the flush loop then runs to its next suspension point. -/
def resumePush (s : AudioSession) (ok : Bool) : AudioSession :=
  if s.flushingAudio = false then s
  else
    let s1 := if ok then { s with pushedAudioChunks := s.pushedAudioChunks + 1 } else s
    flushLoopStep s1

/-- The audio-relevant effect of `TabSession.dispose`: set the disposed
flag and terminal state, clear the queue without flushing, drop the engine
handles. -/
def disposeAudio (s : AudioSession) : AudioSession :=
  if s.isDisposed = true then s
  else
    { s with
        isDisposed := true,
        state := SState.closed,
        pendingAudioChunks := [],
        enginesPresent := false }

/-- The events that touch the audio queue, at the granularity of the
suspension points of the single-threaded event loop. -/
inductive AudioEvent where
  | arrive (c : Nat)
  | resume (ok : Bool)
  | disposeEv
  deriving DecidableEq, Repr

def audioStep (s : AudioSession) : AudioEvent → AudioSession
  | AudioEvent.arrive c => handleAudioChunk s c
  | AudioEvent.resume ok => resumePush s ok
  | AudioEvent.disposeEv => disposeAudio s

def audioRun (s : AudioSession) (evs : List AudioEvent) : AudioSession :=
  evs.foldl audioStep s

/-- The session right after a successful Init: `running`, settings loaded
with `maxPendingAudioChunks = m`, engines acquired, empty queue. -/
def initialAudio (m : Nat) : AudioSession :=
  { state := SState.running, settingsLoaded := true, maxPendingAudioChunks := m,
    enginesPresent := true, pendingAudioChunks := [], droppedAudioChunks := 0,
    receivedAudioChunks := 0, pushedAudioChunks := 0, flushingAudio := false,
    isDisposed := false }

/-- Scenario C events: 30 chunks arrive while no `pushAudio` call ever
settles (no `resume` event occurs). -/
def scenarioCEvents : List AudioEvent :=
  (List.range 30).map fun i => AudioEvent.arrive i

/-- The state after Scenario C with `maxPendingAudioChunks = 10`. -/
def scenarioCFinal : AudioSession :=
  audioRun (initialAudio 10) scenarioCEvents

end SessionAudio

namespace Transcript

/-- The translation-relevant settings snapshot (`settings.translation.enabled`,
`settings.runtime.partialTranslation` and the language pair). -/
structure TransCfg where
  translationEnabled : Bool
  partialTranslation : Bool
  sourceLanguage : String
  targetLanguage : String
  deriving DecidableEq, Repr

/-- One recognition-engine segment callback reaching `handleAsrSegment`,
with the environment the handler observes: whether the engines/settings
guard passes at entry, and how `translator.translate` settles for this
segment (`some t` resolves with translation `t`, `none` rejects).  A list
of these events is the order in which segment handlers reach their
(atomic) increment-and-emit step. -/
structure SegmentEvent where
  text : String
  isFinal : Bool
  guardsOk : Bool
  translateResult : Option String
  deriving DecidableEq, Repr

/-- An emitted `TRANSCRIPT_UPDATE` payload (the fields the claims concern). -/
structure TranscriptMsg where
  text : String
  translatedText : Option String
  isFinal : Bool
  revision : Nat
  deriving DecidableEq, Repr

/-- The revision counter and the emitted updates, in emission order. -/
structure TransState where
  revision : Nat
  emitted : List TranscriptMsg
  deriving DecidableEq, Repr

/-- A fresh session's transcript state (`revision = 0`). -/
def TransState.init : TransState := ⟨0, []⟩

/-- `TabSession.handleAsrSegment`: bail out when engines or settings are
gone; translate only when enabled and (final or partial translation is on),
swallowing translation failures (the update then carries no translated
text); then increment the session revision and emit the update carrying
it. -/
def handleAsrSegment (cfg : TransCfg) (s : TransState) (ev : SegmentEvent) : TransState :=
  if ev.guardsOk = false then s
  else
    let shouldTranslate := cfg.translationEnabled && (ev.isFinal || cfg.partialTranslation)
    let translatedText := if shouldTranslate then ev.translateResult else none
    { revision := s.revision + 1,
      emitted := s.emitted ++
        [{ text := ev.text, translatedText := translatedText, isFinal := ev.isFinal,
           revision := s.revision + 1 }] }

/-- Process a sequence of segment events. -/
def transRun (cfg : TransCfg) (s : TransState) (evs : List SegmentEvent) : TransState :=
  evs.foldl (handleAsrSegment cfg) s

end Transcript

namespace SessionLife

/-- Outbound `BackgroundToContentMessage`s the lifecycle claims concern. -/
inductive MsgOut where
  | sessionError (code : String) (fatal : Bool)
  | sessionStopped (reason : String)
  | sessionReady (engineKey : String)
  deriving DecidableEq, Repr

/-- Observable side effects of the lifecycle code, in program order. -/
inductive Effect where
  | unbindPort
  | acquireAsr (key : String)
  | acquireTranslator (key : String)
  | releaseAsr (key : String)
  | releaseTranslator (key : String)
  | post (m : MsgOut)
  | postFailure (m : MsgOut)
  | onClosed (sessionId : String)
  deriving DecidableEq, Repr

/-- The lifecycle slice of `TabSession` state. -/
structure Session where
  sessionId : String
  state : SessionAudio.SState
  settingsLoaded : Bool
  engines : Option (String × String)
  portBound : Bool
  pendingAudioChunks : List Nat
  isDisposed : Bool
  initInProgress : Bool
  deriving DecidableEq, Repr

/-- `TabSession.dispose(reason)`, with `postOk` telling whether
`port.postMessage` succeeds.  The fuel bounds the re-entrant call that the
catch handler of `safePost` makes back into `dispose` when posting the
stopped notification fails; the `isDisposed` guard makes that inner call
return immediately, so any positive fuel gives the same result (proved
below). -/
def disposeF (postOk : Bool) (reason : String) : Nat → Session → Session × List Effect
  | 0, _s => (_s, [])
  | Nat.succ fuel, s =>
    if s.isDisposed = true then (s, [])
    else
      let s1 : Session :=
        { s with
            isDisposed := true,
            state := SessionAudio.SState.closed,
            portBound := false,
            pendingAudioChunks := [],
            engines := none }
      let releaseEffects : List Effect :=
        match s.engines with
        | some keys => [Effect.releaseAsr keys.1, Effect.releaseTranslator keys.2]
        | none => []
      let postResult : Session × List Effect :=
        if postOk then (s1, [Effect.post (MsgOut.sessionStopped reason)])
        else
          let inner := disposeF postOk "post_failed" fuel s1
          (inner.1, Effect.postFailure (MsgOut.sessionStopped reason) :: inner.2)
      (postResult.1,
        Effect.unbindPort :: releaseEffects ++ postResult.2 ++
          [Effect.onClosed s.sessionId])

/-- `TabSession.dispose` as called at runtime (re-entrant depth at most 1). -/
def dispose (postOk : Bool) (reason : String) (s : Session) : Session × List Effect :=
  disposeF postOk reason 2 s

/-- `TabSession.safePost`: try `port.postMessage`; a throw triggers
`dispose('post_failed')`. -/
def safePostF (postOk : Bool) (m : MsgOut) (s : Session) : Session × List Effect :=
  if postOk then (s, [Effect.post m])
  else
    let inner := dispose postOk "post_failed" s
    (inner.1, Effect.postFailure m :: inner.2)

/-- `VT_CHANNEL_VERSION` from `src/shared/constants.ts`. -/
def VT_CHANNEL_VERSION : Nat := 1

/-- The `SESSION_INIT` fields the claims concern. -/
structure InitMessage where
  version : Nat
  isLive : Bool
  deriving DecidableEq, Repr

/-- How the recognition engine's asynchronous initialization turns out:
resolves, throws, or reports a fatal error through the `onError` callback
while initializing. -/
inductive AsrInitOutcome where
  | ok
  | threw
  | fatalCallback (code : String)
  deriving DecidableEq, Repr

/-- `TabSession.handleSessionInit`: ignore a duplicate Init while one is in
progress; reject a wrong protocol version (fatal `VERSION_MISMATCH`, then
dispose); reject a non-live stream (fatal `NOT_LIVE_STREAM`, then
dispose); otherwise load settings, acquire both engines from the pools and
run the recognition engine's initialization, transitioning to `running`
and posting `SESSION_READY` only when it succeeds and the session was not
disposed meanwhile. -/
def handleSessionInit (postOk : Bool) (msg : InitMessage) (outcome : AsrInitOutcome)
    (asrKey translatorKey : String) (s : Session) : Session × List Effect :=
  if s.initInProgress = true then (s, [])
  else
    let s0 : Session := { s with initInProgress := true }
    if msg.version ≠ VT_CHANNEL_VERSION then
      let p := safePostF postOk (MsgOut.sessionError "VERSION_MISMATCH" true) s0
      let d := dispose postOk "version_mismatch" p.1
      ({ d.1 with initInProgress := false }, p.2 ++ d.2)
    else if msg.isLive = false then
      let p := safePostF postOk (MsgOut.sessionError "NOT_LIVE_STREAM" true) s0
      let d := dispose postOk "non_live" p.1
      ({ d.1 with initInProgress := false }, p.2 ++ d.2)
    else
      let s1 : Session :=
        { s0 with settingsLoaded := true, engines := some (asrKey, translatorKey) }
      let acqEffects : List Effect :=
        [Effect.acquireAsr asrKey, Effect.acquireTranslator translatorKey]
      match outcome with
      | AsrInitOutcome.ok =>
        if s1.isDisposed = true then ({ s1 with initInProgress := false }, acqEffects)
        else
          let s2 : Session := { s1 with state := SessionAudio.SState.running }
          let p := safePostF postOk (MsgOut.sessionReady asrKey) s2
          ({ p.1 with initInProgress := false }, acqEffects ++ p.2)
      | AsrInitOutcome.threw =>
        let p := safePostF postOk (MsgOut.sessionError "ASR_INIT_FAILED" true) s1
        let d := dispose postOk "asr_init_failed"
          ({ p.1 with state := SessionAudio.SState.error })
        ({ d.1 with initInProgress := false }, acqEffects ++ p.2 ++ d.2)
      | AsrInitOutcome.fatalCallback code =>
        let p := safePostF postOk (MsgOut.sessionError code true) s1
        let d := dispose postOk code ({ p.1 with state := SessionAudio.SState.error })
        ({ d.1 with initInProgress := false }, acqEffects ++ p.2 ++ d.2)

/-- The successfully delivered outbound messages among the effects. -/
def postedMessages (effs : List Effect) : List MsgOut :=
  effs.filterMap fun e =>
    match e with
    | Effect.post m => some m
    | _ => none

/-- A concrete live session used by the lifecycle witnesses. -/
def witnessSession : Session :=
  { sessionId := "7:0", state := SessionAudio.SState.running, settingsLoaded := true,
    engines := some ("asr-key", "tr-key"), portBound := true,
    pendingAudioChunks := [3, 4], isDisposed := false, initInProgress := false }

end SessionLife

namespace Manager

/-- Effects of `SessionManager.attachPort` on the connecting port. -/
inductive MgrEffect where
  | postToPort (m : SessionLife.MsgOut)
  | disconnectPort
  | replacedPort (sessionId : String)
  | createdSession (sessionId : String)
  deriving DecidableEq, Repr

/-- The registry slice of `SessionManager` state. -/
structure ManagerState where
  sessions : List String
  maxSessions : Nat
  deriving DecidableEq, Repr

/-- The session identity derived from the port sender. -/
def sessionIdOf (tabId frameId : Nat) : String :=
  toString tabId ++ ":" ++ toString frameId

/-- `SessionManager.attachPort`: reject ports without a tab id; swap the
port of an existing session in place; reject a fresh identity at capacity
with a fatal `MAX_SESSIONS_REACHED` error and a disconnect; otherwise
create and register the session. -/
def attachPort (m : ManagerState) (senderTabId : Option Nat) (frameId : Nat) :
    ManagerState × List MgrEffect :=
  match senderTabId with
  | none => (m, [MgrEffect.disconnectPort])
  | some tabId =>
    let sessionId := sessionIdOf tabId frameId
    if m.sessions.contains sessionId then
      (m, [MgrEffect.replacedPort sessionId])
    else if m.maxSessions ≤ m.sessions.length then
      (m,
        [MgrEffect.postToPort (SessionLife.MsgOut.sessionError "MAX_SESSIONS_REACHED" true),
          MgrEffect.disconnectPort])
    else
      ({ m with sessions := m.sessions ++ [sessionId] },
        [MgrEffect.createdSession sessionId])

/-- The manager's `onClosed` callback (`this.sessions.delete(id)`), applied
for each `onClosed` effect a session emits. -/
def applyEffect (registry : List String) : SessionLife.Effect → List String
  | SessionLife.Effect.onClosed id => registry.filter fun x => x ≠ id
  | _ => registry

def applyEffects (registry : List String) (effs : List SessionLife.Effect) : List String :=
  effs.foldl applyEffect registry

end Manager

end LinguaRelay

namespace LinguaRelay

namespace EnginePool

theorem wf_empty : WF PoolState.empty := by decide

theorem entryOf_mem_keys {l : List (String × Entry)} {k : String} {e : Entry}
    (h : entryOf l k = some e) : k ∈ l.map Prod.fst := by
  induction l with
  | nil => simp [entryOf] at h
  | cons p rest ih =>
    obtain ⟨k2, e2⟩ := p
    by_cases hk : k2 = k
    · subst hk; simp
    · simp only [entryOf, if_neg hk] at h
      simpa using Or.inr (ih h)

theorem entryOf_mem {l : List (String × Entry)} {k : String} {e : Entry}
    (h : entryOf l k = some e) : (k, e) ∈ l := by
  induction l with
  | nil => simp [entryOf] at h
  | cons p rest ih =>
    obtain ⟨k2, e2⟩ := p
    by_cases hk : k2 = k
    · subst hk
      have he : e2 = e := by simpa [entryOf] using h
      subst he; simp
    · simp only [entryOf, if_neg hk] at h
      simpa using Or.inr (ih h)

theorem entryOf_eq_none_iff {l : List (String × Entry)} {k : String} :
    entryOf l k = none ↔ k ∉ l.map Prod.fst := by
  induction l with
  | nil => simp [entryOf]
  | cons p rest ih =>
    obtain ⟨k2, e2⟩ := p
    simp only [entryOf, List.map_cons, List.mem_cons]
    by_cases hk : k2 = k
    · subst hk; simp
    · simp [hk, ih, Ne.symm hk]

theorem entryOf_setEntry_self (l : List (String × Entry)) (k : String) (e : Entry) :
    entryOf (setEntry l k e) k = some e := by
  induction l with
  | nil => simp [entryOf, setEntry]
  | cons p rest ih =>
    obtain ⟨k2, e2⟩ := p
    by_cases hk : k2 = k
    · subst hk; simp [entryOf, setEntry]
    · simp [entryOf, setEntry, if_neg hk, ih]

theorem entryOf_setEntry_ne (l : List (String × Entry)) (k k2 : String) (e : Entry)
    (h : k2 ≠ k) : entryOf (setEntry l k e) k2 = entryOf l k2 := by
  induction l with
  | nil => simp [entryOf, setEntry, Ne.symm h]
  | cons p rest ih =>
    obtain ⟨k3, e3⟩ := p
    by_cases hk : k3 = k
    · simp [setEntry, hk, entryOf, Ne.symm h]
    · simp [setEntry, hk, entryOf, ih]

theorem keys_setEntry_mem {l : List (String × Entry)} {k : String} (e : Entry)
    (h : k ∈ l.map Prod.fst) : (setEntry l k e).map Prod.fst = l.map Prod.fst := by
  induction l with
  | nil => simp at h
  | cons p rest ih =>
    obtain ⟨k2, e2⟩ := p
    by_cases hk : k2 = k
    · subst hk; simp [setEntry]
    · simp only [List.map_cons, List.mem_cons] at h
      rcases h with h | h
      · exact absurd h.symm hk
      · simp [setEntry, if_neg hk, ih h]

theorem keys_setEntry_not_mem {l : List (String × Entry)} {k : String} (e : Entry)
    (h : k ∉ l.map Prod.fst) :
    (setEntry l k e).map Prod.fst = l.map Prod.fst ++ [k] := by
  induction l with
  | nil => simp [setEntry]
  | cons p rest ih =>
    obtain ⟨k2, e2⟩ := p
    simp only [List.map_cons, List.mem_cons] at h
    push_neg at h
    simp [setEntry, if_neg (fun hh : k2 = k => h.1 hh.symm), ih h.2]

theorem idsOf_setEntry_of_entryOf {l : List (String × Entry)} {k : String} {e : Entry}
    (h : entryOf l k = some e) (e2 : Entry) (hid : e2.engineId = e.engineId) :
    idsOf (setEntry l k e2) = idsOf l := by
  induction l with
  | nil => simp [entryOf] at h
  | cons p rest ih =>
    obtain ⟨k3, e3⟩ := p
    by_cases hk : k3 = k
    · subst hk
      have he3 : e3 = e := by simpa [entryOf] using h
      subst he3
      simp [setEntry, idsOf, hid]
    · have h2 : entryOf rest k = some e := by simpa [entryOf, hk] using h
      have := ih h2
      simp only [setEntry, if_neg hk, idsOf, List.map_cons, List.cons.injEq]
      simp only [idsOf] at this
      exact ⟨trivial, this⟩

theorem idsOf_setEntry_not_mem {l : List (String × Entry)} {k : String}
    (h : entryOf l k = none) (e2 : Entry) :
    idsOf (setEntry l k e2) = idsOf l ++ [e2.engineId] := by
  induction l with
  | nil => simp [setEntry, idsOf]
  | cons p rest ih =>
    obtain ⟨k3, e3⟩ := p
    by_cases hk : k3 = k
    · subst hk; simp [entryOf] at h
    · have h2 : entryOf rest k = none := by simpa [entryOf, hk] using h
      have := ih h2
      simp only [setEntry, if_neg hk, idsOf, List.map_cons, List.cons_append, List.cons.injEq]
      simp only [idsOf] at this
      exact ⟨trivial, this⟩

theorem mem_setEntry {l : List (String × Entry)} {k : String} {e2 : Entry} {p : String × Entry}
    (h : p ∈ setEntry l k e2) : p ∈ l ∨ p = (k, e2) := by
  induction l with
  | nil => simpa [setEntry] using h
  | cons q rest ih =>
    obtain ⟨k3, e3⟩ := q
    by_cases hk : k3 = k
    · subst hk
      rw [show setEntry ((k3, e3) :: rest) k3 e2 = (k3, e2) :: rest from by simp [setEntry]] at h
      rcases List.mem_cons.mp h with h1 | h1
      · exact Or.inr h1
      · exact Or.inl (List.mem_cons_of_mem _ h1)
    · simp only [setEntry, if_neg hk, List.mem_cons] at h
      rcases h with h | h
      · exact Or.inl (h ▸ List.mem_cons_self _ _)
      · rcases ih h with h2 | h2
        · exact Or.inl (List.mem_cons_of_mem _ h2)
        · exact Or.inr h2

theorem acquire_hit {s : PoolState} {k : String} {e : Entry}
    (he : entryOf s.entries k = some e) :
    acquire s k =
      ({ s with
          entries := setEntry s.entries k
            ({ e with refCount := e.refCount + 1, idleTimer := none }) },
        e.engineId) := by
  simp [acquire, he]

theorem acquire_miss {s : PoolState} {k : String}
    (he : entryOf s.entries k = none) :
    acquire s k =
      ({ s with
          entries := setEntry s.entries k
            ({ engineId := s.nextEngineId, refCount := 1, idleTimer := none }),
          nextEngineId := s.nextEngineId + 1 },
        s.nextEngineId) := by
  simp [acquire, he]

theorem disposed_acquire (s : PoolState) (k : String) :
    (acquire s k).1.disposedIds = s.disposedIds := by
  cases he : entryOf s.entries k with
  | some e => rw [acquire_hit he]
  | none => rw [acquire_miss he]

theorem entryOf_acquire_ne (s : PoolState) (k k2 : String) (hne : k2 ≠ k) :
    entryOf (acquire s k).1.entries k2 = entryOf s.entries k2 := by
  cases he : entryOf s.entries k with
  | some e =>
    rw [acquire_hit he]
    exact entryOf_setEntry_ne _ _ _ _ hne
  | none =>
    rw [acquire_miss he]
    exact entryOf_setEntry_ne _ _ _ _ hne

theorem wf_acquire {s : PoolState} (k : String) (h : WF s) : WF (acquire s k).1 := by
  obtain ⟨hkeys, hids, hlt, hdlt, hrt, hrn⟩ := h
  cases he : entryOf s.entries k with
  | some e =>
    rw [acquire_hit he]
    refine ⟨?_, ?_, ?_, ?_, ?_, ?_⟩
    · simpa [keys_setEntry_mem _ (entryOf_mem_keys he)] using hkeys
    · have hrw := idsOf_setEntry_of_entryOf he
        ({ e with refCount := e.refCount + 1, idleTimer := none }) rfl
      simpa [hrw] using hids
    · intro p hp
      rcases mem_setEntry hp with hp2 | hp2
      · exact hlt p hp2
      · subst hp2
        exact hlt (k, e) (entryOf_mem he)
    · exact hdlt
    · intro p hp
      rcases mem_setEntry hp with hp2 | hp2
      · exact hrt p hp2
      · subst hp2; intro _; rfl
    · intro p hp
      rcases mem_setEntry hp with hp2 | hp2
      · exact hrn p hp2
      · subst hp2
        have h0 : (0 : Int) ≤ e.refCount := hrn (k, e) (entryOf_mem he)
        show (0 : Int) ≤ e.refCount + 1
        omega
  | none =>
    have hnk : k ∉ s.entries.map Prod.fst := entryOf_eq_none_iff.mp he
    rw [acquire_miss he]
    refine ⟨?_, ?_, ?_, ?_, ?_, ?_⟩
    · rw [keys_setEntry_not_mem _ hnk]
      simpa [List.nodup_append, hnk] using hkeys
    · rw [idsOf_setEntry_not_mem he]
      have hids2 := List.nodup_append.mp hids
      refine List.nodup_append.mpr
        ⟨List.nodup_append.mpr ⟨hids2.1, List.nodup_singleton _, ?_⟩, hids2.2.1, ?_⟩
      · intro a ha hb
        simp only [List.mem_singleton] at hb
        subst hb
        simp only [idsOf, List.mem_map] at ha
        obtain ⟨p, hp, hpe⟩ := ha
        exact absurd (hpe ▸ hlt p hp) (lt_irrefl _)
      · intro a ha hb
        rcases List.mem_append.mp ha with ha2 | ha2
        · exact hids2.2.2 ha2 hb
        · simp only [List.mem_singleton] at ha2
          subst ha2
          exact absurd (hdlt _ hb) (lt_irrefl _)
    · intro p hp
      rcases mem_setEntry hp with hp2 | hp2
      · exact Nat.lt_succ_of_lt (hlt p hp2)
      · subst hp2; exact Nat.lt_succ_self _
    · intro i hi
      exact Nat.lt_succ_of_lt (hdlt i hi)
    · intro p hp
      rcases mem_setEntry hp with hp2 | hp2
      · exact hrt p hp2
      · subst hp2; intro _; rfl
    · intro p hp
      rcases mem_setEntry hp with hp2 | hp2
      · exact hrn p hp2
      · subst hp2
        show (0 : Int) ≤ 1
        omega

/-- C1.  `EnginePool.acquire`: on a hit the stored instance is returned with
its refCount incremented and any pending disposal timer cancelled, and the
factory does not run (`nextEngineId` is unchanged); on a miss the factory
runs exactly once (`nextEngineId` is bumped by one) and the fresh instance
is stored with refCount 1 and returned; well-formedness (in particular at
most one entry, hence at most one live instance, per key) is preserved and
other keys are untouched. -/
theorem acquire_spec (s : PoolState) (k : String) (h : WF s) :
    (∀ e, entryOf s.entries k = some e →
        (acquire s k).2 = e.engineId ∧
        entryOf (acquire s k).1.entries k =
          some ({ e with refCount := e.refCount + 1, idleTimer := none }) ∧
        (acquire s k).1.nextEngineId = s.nextEngineId ∧
        (acquire s k).1.disposedIds = s.disposedIds) ∧
    (entryOf s.entries k = none →
        (acquire s k).2 = s.nextEngineId ∧
        entryOf (acquire s k).1.entries k =
          some ({ engineId := s.nextEngineId, refCount := 1, idleTimer := none }) ∧
        (acquire s k).1.nextEngineId = s.nextEngineId + 1 ∧
        (acquire s k).1.disposedIds = s.disposedIds) ∧
    WF (acquire s k).1 ∧
    (∀ k2, k2 ≠ k → entryOf (acquire s k).1.entries k2 = entryOf s.entries k2) := by
  refine ⟨?_, ?_, wf_acquire k h, fun k2 hne => entryOf_acquire_ne s k k2 hne⟩
  · intro e he
    rw [acquire_hit he]
    simp [entryOf_setEntry_self]
  · intro he
    rw [acquire_miss he]
    simp [entryOf_setEntry_self]

/-- Witness for `acquire_spec`: instantiates the theorem at the concrete
pool `acquireWitnessPool`, on a hit ("a") and on a miss ("b"). -/
theorem acquire_spec_witness :
    WF acquireWitnessPool ∧
    (acquire acquireWitnessPool "a").2 = 0 ∧
    (acquire acquireWitnessPool "b").2 = 1 := by
  refine ⟨by decide, ?_, ?_⟩
  · exact ((acquire_spec acquireWitnessPool "a" (by decide)).1
      ({ engineId := 0, refCount := 0, idleTimer := some 7 }) (by decide)).1
  · exact ((acquire_spec acquireWitnessPool "b" (by decide)).2.1 (by decide)).1

theorem removeEntry_sublist (l : List (String × Entry)) (k : String) :
    List.Sublist (removeEntry l k) l := by
  induction l with
  | nil => simp [removeEntry]
  | cons p rest ih =>
    obtain ⟨k2, e2⟩ := p
    by_cases hk : k2 = k
    · rw [show removeEntry ((k2, e2) :: rest) k = rest from by simp [removeEntry, hk]]
      exact List.sublist_cons_self _ _
    · rw [show removeEntry ((k2, e2) :: rest) k = (k2, e2) :: removeEntry rest k from by
        simp [removeEntry, hk]]
      exact List.Sublist.cons₂ _ ih

theorem mem_removeEntry {l : List (String × Entry)} {k : String} {p : String × Entry}
    (h : p ∈ removeEntry l k) : p ∈ l :=
  (removeEntry_sublist l k).subset h

theorem entryOf_removeEntry_ne (l : List (String × Entry)) (k k2 : String) (hne : k2 ≠ k) :
    entryOf (removeEntry l k) k2 = entryOf l k2 := by
  induction l with
  | nil => simp [removeEntry]
  | cons p rest ih =>
    obtain ⟨k3, e3⟩ := p
    by_cases hk : k3 = k
    · simp [removeEntry, hk, entryOf, Ne.symm hne]
    · simp [removeEntry, hk, entryOf, ih]

theorem idsOf_removeEntry_perm {l : List (String × Entry)} {k : String} {e : Entry}
    (h : entryOf l k = some e) :
    List.Perm (e.engineId :: idsOf (removeEntry l k)) (idsOf l) := by
  induction l with
  | nil => simp [entryOf] at h
  | cons p rest ih =>
    obtain ⟨k2, e2⟩ := p
    by_cases hk : k2 = k
    · subst hk
      have he2 : e2 = e := by simpa [entryOf] using h
      subst he2
      simp [removeEntry, idsOf]
    · have h2 : entryOf rest k = some e := by simpa [entryOf, hk] using h
      have hperm := ih h2
      simp only [removeEntry, if_neg hk, idsOf, List.map_cons]
      simp only [idsOf] at hperm
      exact (List.Perm.swap _ _ _).trans (hperm.cons _)

theorem fireTimer_cases (s : PoolState) (k : String) :
    fireTimer s k = s ∨
    ∃ e, entryOf s.entries k = some e ∧ ¬(0 < e.refCount) ∧
      fireTimer s k =
        { s with
            entries := removeEntry s.entries k,
            disposedIds := s.disposedIds ++ [e.engineId] } := by
  cases he : entryOf s.entries k with
  | none => exact Or.inl (by simp [fireTimer, he])
  | some e =>
    by_cases hrc : 0 < e.refCount
    · exact Or.inl (by simp [fireTimer, he, hrc])
    · exact Or.inr ⟨e, rfl, hrc, by simp [fireTimer, he, hrc]⟩

theorem mem_disposed_fireTimer {s : PoolState} (k : String) {x : Nat}
    (h : x ∈ s.disposedIds) : x ∈ (fireTimer s k).disposedIds := by
  rcases fireTimer_cases s k with hc | ⟨e, _, _, hc⟩
  · rwa [hc]
  · rw [hc]; exact List.mem_append_left _ h

theorem nextEngineId_fireTimer (s : PoolState) (k : String) :
    (fireTimer s k).nextEngineId = s.nextEngineId := by
  rcases fireTimer_cases s k with hc | ⟨e, _, _, hc⟩ <;> rw [hc]

theorem entryOf_fireTimer_ne (s : PoolState) (k k2 : String) (hne : k2 ≠ k) :
    entryOf (fireTimer s k).entries k2 = entryOf s.entries k2 := by
  rcases fireTimer_cases s k with hc | ⟨e, _, _, hc⟩
  · rw [hc]
  · rw [hc]
    exact entryOf_removeEntry_ne _ _ _ hne

theorem wf_fireTimer {s : PoolState} (k : String) (h : WF s) : WF (fireTimer s k) := by
  rcases fireTimer_cases s k with hc | ⟨e, he, hrc, hc⟩
  · rwa [hc]
  · obtain ⟨hkeys, hids, hlt, hdlt, hrt, hrn⟩ := h
    rw [hc]
    refine ⟨?_, ?_, ?_, ?_, ?_, ?_⟩
    · exact hkeys.sublist (List.Sublist.map _ (removeEntry_sublist _ _))
    · have hperm : List.Perm
          (idsOf (removeEntry s.entries k) ++ (s.disposedIds ++ [e.engineId]))
          (idsOf s.entries ++ s.disposedIds) := by
        have h1 : List.Perm (s.disposedIds ++ [e.engineId]) (e.engineId :: s.disposedIds) :=
          List.perm_append_comm.trans (by simp)
        refine List.Perm.trans (List.Perm.append_left _ h1) ?_
        have h2 : List.Perm
            (idsOf (removeEntry s.entries k) ++ e.engineId :: s.disposedIds)
            (e.engineId :: (idsOf (removeEntry s.entries k) ++ s.disposedIds)) :=
          List.perm_middle
        refine h2.trans ?_
        have h3 := (idsOf_removeEntry_perm he).append_right s.disposedIds
        simpa using h3
      exact hperm.symm.nodup hids
    · intro p hp
      exact hlt p (mem_removeEntry hp)
    · intro i hi
      rcases List.mem_append.mp hi with hi2 | hi2
      · exact hdlt i hi2
      · simp only [List.mem_singleton] at hi2
        subst hi2
        exact hlt (k, e) (entryOf_mem he)
    · intro p hp
      exact hrt p (mem_removeEntry hp)
    · intro p hp
      exact hrn p (mem_removeEntry hp)

theorem mem_disposed_foldl {ks : List String} {s : PoolState} {x : Nat}
    (h : x ∈ s.disposedIds) : x ∈ (ks.foldl fireTimer s).disposedIds := by
  induction ks generalizing s with
  | nil => simpa using h
  | cons k2 rest ih =>
    simp only [List.foldl_cons]
    exact ih (mem_disposed_fireTimer k2 h)

theorem wf_foldl_fireTimer {ks : List String} {s : PoolState} (h : WF s) :
    WF (ks.foldl fireTimer s) := by
  induction ks generalizing s with
  | nil => simpa using h
  | cons k2 rest ih =>
    simp only [List.foldl_cons]
    exact ih (wf_fireTimer k2 h)

theorem wf_fireDue {s : PoolState} (t : Nat) (h : WF s) : WF (fireDue t s) :=
  wf_foldl_fireTimer h

theorem mem_disposed_fireDue {s : PoolState} (t : Nat) {x : Nat}
    (h : x ∈ s.disposedIds) : x ∈ (fireDue t s).disposedIds :=
  mem_disposed_foldl h

theorem entryOf_eq_of_mem_nodup {l : List (String × Entry)}
    (hnd : (l.map Prod.fst).Nodup) {k : String} {e : Entry} (h : (k, e) ∈ l) :
    entryOf l k = some e := by
  induction l with
  | nil => simp at h
  | cons p rest ih =>
    obtain ⟨k2, e2⟩ := p
    simp only [List.map_cons, List.nodup_cons] at hnd
    rcases List.mem_cons.mp h with h2 | h2
    · injection h2 with hk he2
      subst hk
      subst he2
      simp [entryOf]
    · have hk : k2 ≠ k := by
        intro hkk
        subst hkk
        exact hnd.1 (by simpa using List.mem_map_of_mem Prod.fst h2)
      simp only [entryOf, if_neg hk]
      exact ih hnd.2 h2

theorem not_mem_dueKeys {s : PoolState} {t : Nat}
    (hnd : (s.entries.map Prod.fst).Nodup) {k : String} {e : Entry}
    (he : entryOf s.entries k = some e)
    (hnotdue : ∀ ft, e.idleTimer = some ft → ¬ft ≤ t) :
    k ∉ dueKeys t s.entries := by
  intro hmem
  simp only [dueKeys, List.mem_map] at hmem
  obtain ⟨p, hp, hpk⟩ := hmem
  obtain ⟨k2, e2⟩ := p
  simp only at hpk
  have hpmem := List.mem_filter.mp hp
  rw [hpk] at hpmem
  have he2 : entryOf s.entries k = some e2 := entryOf_eq_of_mem_nodup hnd hpmem.1
  rw [he] at he2
  injection he2 with he2
  subst he2
  have hdue : (match e.idleTimer with
      | some ft => decide (ft ≤ t)
      | none => false) = true := hpmem.2
  cases hti : e.idleTimer with
  | none => rw [hti] at hdue; simp at hdue
  | some ft =>
    rw [hti] at hdue
    simp only [decide_eq_true_eq] at hdue
    exact hnotdue ft hti hdue

theorem mem_dueKeys {s : PoolState} {t : Nat} {k : String} {e : Entry}
    (he : entryOf s.entries k = some e) {ft : Nat} (hti : e.idleTimer = some ft)
    (hle : ft ≤ t) : k ∈ dueKeys t s.entries := by
  simp only [dueKeys, List.mem_map]
  refine ⟨(k, e), List.mem_filter.mpr ⟨entryOf_mem he, ?_⟩, rfl⟩
  simp [hti, hle]

theorem entryOf_foldl_fireTimer_not_mem {ks : List String} {s : PoolState} {k : String}
    (hk : k ∉ ks) :
    entryOf ((ks.foldl fireTimer s)).entries k = entryOf s.entries k := by
  induction ks generalizing s with
  | nil => simp
  | cons k2 rest ih =>
    simp only [List.mem_cons, not_or] at hk
    simp only [List.foldl_cons]
    rw [ih hk.2]
    exact entryOf_fireTimer_ne s k2 k hk.1

theorem entryOf_fireDue_not_due {s : PoolState} {t : Nat} {k : String} {e : Entry}
    (hnd : (s.entries.map Prod.fst).Nodup) (he : entryOf s.entries k = some e)
    (hnotdue : ∀ ft, e.idleTimer = some ft → ¬ft ≤ t) :
    entryOf (fireDue t s).entries k = some e := by
  rw [show fireDue t s = (dueKeys t s.entries).foldl fireTimer s from rfl]
  rw [entryOf_foldl_fireTimer_not_mem (not_mem_dueKeys hnd he hnotdue)]
  exact he

theorem foldl_fireTimer_disposes {ks : List String} {s : PoolState} {k : String} {e : Entry}
    (hk : k ∈ ks) (he : entryOf s.entries k = some e) (hrc : ¬0 < e.refCount) :
    e.engineId ∈ (ks.foldl fireTimer s).disposedIds := by
  induction ks generalizing s with
  | nil => simp at hk
  | cons k2 rest ih =>
    simp only [List.foldl_cons]
    by_cases hkk : k2 = k
    · subst hkk
      have hstep : e.engineId ∈ (fireTimer s k2).disposedIds := by
        simp [fireTimer, he, hrc]
      exact mem_disposed_foldl hstep
    · rcases List.mem_cons.mp hk with hk2 | hk2
      · exact absurd hk2.symm hkk
      · have he2 : entryOf (fireTimer s k2).entries k = some e := by
          rw [entryOf_fireTimer_ne s k2 k (fun h => hkk h.symm)]
          exact he
        exact ih hk2 he2

theorem fireDue_disposes {s : PoolState} {t : Nat} {k : String} {e : Entry}
    (he : entryOf s.entries k = some e) {ft : Nat} (hti : e.idleTimer = some ft)
    (hle : ft ≤ t) (hrc : ¬0 < e.refCount) :
    e.engineId ∈ (fireDue t s).disposedIds :=
  foldl_fireTimer_disposes (mem_dueKeys he hti hle) he hrc

theorem disposed_release (d now : Nat) (s : PoolState) (k : String) :
    (release d now s k).disposedIds = s.disposedIds := by
  cases he : entryOf s.entries k with
  | none => simp [release, he]
  | some e =>
    by_cases hrc : 0 < e.refCount - 1
    · simp [release, he, hrc]
    · simp [release, he, hrc]

theorem entryOf_release_ne (d now : Nat) (s : PoolState) (k k2 : String) (hne : k2 ≠ k) :
    entryOf (release d now s k).entries k2 = entryOf s.entries k2 := by
  cases he : entryOf s.entries k with
  | none => simp [release, he]
  | some e =>
    by_cases hrc : 0 < e.refCount - 1
    · simp [release, he, hrc, entryOf_setEntry_ne _ _ _ _ hne]
    · simp [release, he, hrc, entryOf_setEntry_ne _ _ _ _ hne]

theorem wf_release {d now : Nat} {s : PoolState} {k : String} (h : WF s)
    (hv : ∀ e, entryOf s.entries k = some e → 1 ≤ e.refCount) :
    WF (release d now s k) := by
  obtain ⟨hkeys, hids, hlt, hdlt, hrt, hrn⟩ := h
  cases he : entryOf s.entries k with
  | none => simpa [release, he] using ⟨hkeys, hids, hlt, hdlt, hrt, hrn⟩
  | some e =>
    have hrc1 : (1 : Int) ≤ e.refCount := hv e he
    have hkeys2 : ∀ e2 : Entry,
        (setEntry s.entries k e2).map Prod.fst = s.entries.map Prod.fst :=
      fun e2 => keys_setEntry_mem e2 (entryOf_mem_keys he)
    by_cases hrc : 0 < e.refCount - 1
    · rw [show release d now s k =
          { s with entries := setEntry s.entries k ({ e with refCount := e.refCount - 1 }) }
          from by simp [release, he, hrc]]
      refine ⟨?_, ?_, ?_, ?_, ?_, ?_⟩
      · rw [hkeys2]; exact hkeys
      · have hrw := idsOf_setEntry_of_entryOf he ({ e with refCount := e.refCount - 1 }) rfl
        simpa [hrw] using hids
      · intro p hp
        rcases mem_setEntry hp with hp2 | hp2
        · exact hlt p hp2
        · subst hp2; exact hlt (k, e) (entryOf_mem he)
      · exact hdlt
      · intro p hp
        rcases mem_setEntry hp with hp2 | hp2
        · exact hrt p hp2
        · subst hp2
          intro _
          have h2 : (0 : Int) < e.refCount := by omega
          exact hrt (k, e) (entryOf_mem he) h2
      · intro p hp
        rcases mem_setEntry hp with hp2 | hp2
        · exact hrn p hp2
        · subst hp2
          show (0 : Int) ≤ e.refCount - 1
          omega
    · rw [show release d now s k =
          { s with
              entries := setEntry s.entries k
                ({ e with refCount := e.refCount - 1, idleTimer := some (now + d) }) }
          from by simp [release, he, hrc]]
      refine ⟨?_, ?_, ?_, ?_, ?_, ?_⟩
      · rw [hkeys2]; exact hkeys
      · have hrw := idsOf_setEntry_of_entryOf he
          ({ e with refCount := e.refCount - 1, idleTimer := some (now + d) }) rfl
        simpa [hrw] using hids
      · intro p hp
        rcases mem_setEntry hp with hp2 | hp2
        · exact hlt p hp2
        · subst hp2; exact hlt (k, e) (entryOf_mem he)
      · exact hdlt
      · intro p hp
        rcases mem_setEntry hp with hp2 | hp2
        · exact hrt p hp2
        · subst hp2
          intro h2
          exact absurd h2 hrc
      · intro p hp
        rcases mem_setEntry hp with hp2 | hp2
        · exact hrn p hp2
        · subst hp2
          show (0 : Int) ≤ e.refCount - 1
          omega

theorem disposed_stepAt (d : Nat) (s : PoolState) (t : Nat) (op : Op) :
    (stepAt d s (t, op)).disposedIds = (fireDue t s).disposedIds := by
  cases op with
  | acquire k => exact disposed_acquire _ _
  | release k => exact disposed_release _ _ _ _
  | tick => rfl

theorem wf_stepAt (d : Nat) {s : PoolState} {t : Nat} {op : Op} (h : WF s)
    (hv : validOp s t op = true) : WF (stepAt d s (t, op)) := by
  cases op with
  | acquire k => exact wf_acquire k (wf_fireDue t h)
  | release k =>
    refine wf_release (wf_fireDue t h) ?_
    intro e he
    simp only [validOp, he, decide_eq_true_eq] at hv
    exact hv
  | tick => exact wf_fireDue t h

theorem mem_disposed_stepAt {d : Nat} {s : PoolState} {t : Nat} {op : Op} {x : Nat}
    (h : x ∈ s.disposedIds) : x ∈ (stepAt d s (t, op)).disposedIds := by
  rw [disposed_stepAt]
  exact mem_disposed_fireDue t h

theorem mem_disposed_run {d : Nat} {s : PoolState} {tr : List (Nat × Op)} {x : Nat}
    (h : x ∈ s.disposedIds) : x ∈ (run d s tr).disposedIds := by
  induction tr generalizing s with
  | nil => simpa [run] using h
  | cons ev rest ih =>
    obtain ⟨t, op⟩ := ev
    exact ih (mem_disposed_stepAt h)

theorem wf_run {d t0 : Nat} {s : PoolState} {tr : List (Nat × Op)} (h : WF s)
    (hv : validFrom d s t0 tr = true) : WF (run d s tr) := by
  induction tr generalizing s t0 with
  | nil => simpa [run] using h
  | cons ev rest ih =>
    obtain ⟨t, op⟩ := ev
    simp only [validFrom, Bool.and_eq_true] at hv
    exact ih (wf_stepAt d h hv.1.2) hv.2

theorem wf_entry_not_disposed {s : PoolState} (h : WF s) {k : String} {e : Entry}
    (he : entryOf s.entries k = some e) : e.engineId ∉ s.disposedIds := by
  intro hd
  have hmem : e.engineId ∈ idsOf s.entries := by
    simp only [idsOf, List.mem_map]
    exact ⟨(k, e), entryOf_mem he, rfl⟩
  exact (List.nodup_append.mp h.2.1).2.2 hmem hd

theorem wf_disposed_not_entry {s : PoolState} (h : WF s) {x : Nat}
    (hx : x ∈ s.disposedIds) : x ∉ idsOf s.entries :=
  fun hmem => (List.nodup_append.mp h.2.1).2.2 hmem hx

theorem validFrom_append_left {d t0 : Nat} {s : PoolState} {xs ys : List (Nat × Op)}
    (h : validFrom d s t0 (xs ++ ys) = true) : validFrom d s t0 xs = true := by
  induction xs generalizing s t0 with
  | nil => simp [validFrom]
  | cons ev rest ih =>
    obtain ⟨t, op⟩ := ev
    simp only [List.cons_append, validFrom, Bool.and_eq_true] at h ⊢
    exact ⟨h.1, ih h.2⟩

theorem validFrom_time_mono {d t0 : Nat} {s : PoolState} {tr : List (Nat × Op)}
    (h : validFrom d s t0 tr = true) : ∀ p ∈ tr, t0 ≤ p.1 := by
  induction tr generalizing s t0 with
  | nil => simp
  | cons ev rest ih =>
    obtain ⟨t, op⟩ := ev
    simp only [validFrom, Bool.and_eq_true, decide_eq_true_eq] at h
    intro p hp
    rcases List.mem_cons.mp hp with hp2 | hp2
    · subst hp2; exact h.1.1
    · exact le_trans h.1.1 (ih h.2 p hp2)

theorem validFrom_times_le {d t0 t : Nat} {s : PoolState} {xs ys : List (Nat × Op)} {op : Op}
    (h : validFrom d s t0 (xs ++ (t, op) :: ys) = true) : ∀ p ∈ xs, p.1 ≤ t := by
  induction xs generalizing s t0 with
  | nil => simp
  | cons ev rest ih =>
    obtain ⟨t1, o1⟩ := ev
    simp only [List.cons_append, validFrom, Bool.and_eq_true] at h
    intro p hp
    rcases List.mem_cons.mp hp with hp2 | hp2
    · subst hp2
      exact validFrom_time_mono h.2 (t, op) (by simp)
    · exact ih h.2 p hp2

theorem entry_preserved_stepAt (d : Nat) {s : PoolState} {k : String} {e : Entry}
    {t : Nat} {op : Op}
    (hwf : WF s) (he : entryOf s.entries k = some e) (hrc : e.refCount = 0)
    {ft : Nat} (hti : e.idleTimer = some ft) (hlt2 : t < ft) (hna : op ≠ Op.acquire k)
    (hv : validOp s t op = true) :
    entryOf (stepAt d s (t, op)).entries k = some e := by
  have hnotdue : ∀ ft2, e.idleTimer = some ft2 → ¬ft2 ≤ t := by
    intro ft2 h2
    rw [hti] at h2
    injection h2 with h2
    omega
  have hfd : entryOf (fireDue t s).entries k = some e :=
    entryOf_fireDue_not_due hwf.1 he hnotdue
  cases op with
  | tick => exact hfd
  | acquire k2 =>
    have hne : k ≠ k2 := fun h2 => hna (by rw [h2])
    show entryOf (acquire (fireDue t s) k2).1.entries k = some e
    rw [entryOf_acquire_ne _ _ _ hne]
    exact hfd
  | release k2 =>
    by_cases hk : k2 = k
    · subst hk
      exfalso
      simp only [validOp, hfd, decide_eq_true_eq] at hv
      omega
    · show entryOf (release d t (fireDue t s) k2).entries k = some e
      rw [entryOf_release_ne _ _ _ _ _ (fun h2 => hk h2.symm)]
      exact hfd

theorem entry_preserved_run {d : Nat} {s : PoolState} {k : String} {e : Entry} {ft : Nat}
    {tr : List (Nat × Op)} {t0 : Nat}
    (hwf : WF s) (he : entryOf s.entries k = some e) (hrc : e.refCount = 0)
    (hti : e.idleTimer = some ft) (hv : validFrom d s t0 tr = true)
    (hbt : ∀ p ∈ tr, p.1 < ft) (hna : ∀ p ∈ tr, p.2 ≠ Op.acquire k) :
    entryOf (run d s tr).entries k = some e ∧ WF (run d s tr) := by
  induction tr generalizing s t0 with
  | nil => exact ⟨he, hwf⟩
  | cons ev rest ih =>
    obtain ⟨t, op⟩ := ev
    simp only [validFrom, Bool.and_eq_true] at hv
    have hvop := hv.1.2
    have hstep := entry_preserved_stepAt d hwf he hrc hti
      (hbt (t, op) (List.mem_cons_self _ _)) (hna (t, op) (List.mem_cons_self _ _)) hvop
    have hwf2 := wf_stepAt d hwf hvop
    exact ih hwf2 hstep hv.2 (fun p hp => hbt p (List.mem_cons_of_mem _ hp))
      (fun p hp => hna p (List.mem_cons_of_mem _ hp))

theorem eventually_disposed_run {d : Nat} {s : PoolState} {k : String} {e : Entry} {ft : Nat}
    {tr : List (Nat × Op)} {t0 : Nat}
    (hwf : WF s) (he : entryOf s.entries k = some e) (hrc : e.refCount = 0)
    (hti : e.idleTimer = some ft) (hv : validFrom d s t0 tr = true)
    (hna : ∀ p ∈ tr, p.2 = Op.acquire k → ft ≤ p.1)
    (hex : ∃ p ∈ tr, ft ≤ p.1) :
    e.engineId ∈ (run d s tr).disposedIds := by
  induction tr generalizing s t0 with
  | nil =>
    obtain ⟨p, hp, _⟩ := hex
    exact absurd hp (List.not_mem_nil p)
  | cons ev rest ih =>
    obtain ⟨t, op⟩ := ev
    simp only [validFrom, Bool.and_eq_true] at hv
    by_cases hft : ft ≤ t
    · have hd0 : e.engineId ∈ (fireDue t s).disposedIds :=
        fireDue_disposes he hti hft (by omega)
      have hd1 : e.engineId ∈ (stepAt d s (t, op)).disposedIds := by
        rw [disposed_stepAt]
        exact hd0
      show e.engineId ∈ (run d (stepAt d s (t, op)) rest).disposedIds
      exact mem_disposed_run hd1
    · have hop : op ≠ Op.acquire k :=
        fun h2 => hft (hna (t, op) (List.mem_cons_self _ _) h2)
      have hstep := entry_preserved_stepAt d hwf he hrc hti (by omega) hop hv.1.2
      have hwf2 := wf_stepAt d hwf hv.1.2
      refine ih hwf2 hstep hv.2 (fun p hp h2 => hna p (List.mem_cons_of_mem _ hp) h2) ?_
      obtain ⟨p, hp, hple⟩ := hex
      rcases List.mem_cons.mp hp with hp2 | hp2
      · exfalso
        rw [hp2] at hple
        exact hft hple
      · exact ⟨p, hp2, hple⟩

/-- C4.  EnginePool release / idle eviction: along any well-matched timed
trace, (i) `dispose()` runs at most once per constructed instance (the
disposal log stays duplicate-free); (ii) once an entry's refCount is 0 with
its idle timer scheduled for time `ft`, if no `acquire` of that key happens
before `ft` and the trace reaches time `ft`, the held instance is disposed
and the entry removed from the pool; and (iii) if an `acquire` of the key
does happen before `ft` (the idle window has not elapsed), it cancels the
timer and returns the very same stored instance, which has not been
disposed. -/
theorem pool_idle_eviction (d : Nat) :
    (∀ t0 tr, validFrom d PoolState.empty t0 tr = true →
        (run d PoolState.empty tr).disposedIds.Nodup) ∧
    (∀ s t0 k e ft tr, WF s → entryOf s.entries k = some e → e.refCount = 0 →
        e.idleTimer = some ft → validFrom d s t0 tr = true →
        (∀ p ∈ tr, p.2 = Op.acquire k → ft ≤ p.1) →
        (∃ p ∈ tr, ft ≤ p.1) →
        e.engineId ∈ (run d s tr).disposedIds ∧
        e.engineId ∉ idsOf (run d s tr).entries) ∧
    (∀ s t0 k e ft mid t2 rest, WF s → entryOf s.entries k = some e → e.refCount = 0 →
        e.idleTimer = some ft →
        validFrom d s t0 (mid ++ (t2, Op.acquire k) :: rest) = true →
        (∀ p ∈ mid, p.2 ≠ Op.acquire k) → t2 < ft →
        (acquire (fireDue t2 (run d s mid)) k).2 = e.engineId ∧
        entryOf (acquire (fireDue t2 (run d s mid)) k).1.entries k =
          some ({ e with refCount := 1, idleTimer := none }) ∧
        e.engineId ∉ (acquire (fireDue t2 (run d s mid)) k).1.disposedIds) := by
  refine ⟨?_, ?_, ?_⟩
  · intro t0 tr hv
    have hwfr := wf_run wf_empty hv
    exact (List.nodup_append.mp hwfr.2.1).2.1
  · intro s t0 k e ft tr hwf he hrc hti hv hna hex
    have hdisp := eventually_disposed_run hwf he hrc hti hv hna hex
    exact ⟨hdisp, wf_disposed_not_entry (wf_run hwf hv) hdisp⟩
  · intro s t0 k e ft mid t2 rest hwf he hrc hti hv hna hlt2
    have hvmid : validFrom d s t0 mid = true := validFrom_append_left hv
    have htle : ∀ p ∈ mid, p.1 ≤ t2 := validFrom_times_le hv
    have hbt : ∀ p ∈ mid, p.1 < ft := fun p hp => lt_of_le_of_lt (htle p hp) hlt2
    obtain ⟨he1, hwf1⟩ := entry_preserved_run hwf he hrc hti hvmid hbt hna
    have hnotdue : ∀ ft2, e.idleTimer = some ft2 → ¬ft2 ≤ t2 := by
      intro ft2 h2
      rw [hti] at h2
      injection h2 with h2
      omega
    have he2 : entryOf (fireDue t2 (run d s mid)).entries k = some e :=
      entryOf_fireDue_not_due hwf1.1 he1 hnotdue
    have hwf2 := wf_fireDue t2 hwf1
    have hhit := acquire_hit he2
    refine ⟨?_, ?_, ?_⟩
    · rw [hhit]
    · rw [hhit]
      have hself := entryOf_setEntry_self (fireDue t2 (run d s mid)).entries k
        ({ e with refCount := e.refCount + 1, idleTimer := none })
      simp only [hself, Option.some.injEq]
      rw [hrc]
      norm_num
    · rw [disposed_acquire]
      exact wf_entry_not_disposed hwf2 he2

/-- Witness for `pool_idle_eviction`: Scenario B with idle window 1000ms;
the instance survives the re-acquire at 500ms and is disposed exactly once
after the window elapses. -/
theorem pool_idle_eviction_witness :
    (run 1000 PoolState.empty scenarioBTrace).disposedIds.Nodup ∧
    0 ∈ (run 1000 scenarioBPool [(1700, Op.tick)]).disposedIds ∧
    (acquire (fireDue 500 (run 1000 scenarioBPool [])) "k").2 = 0 := by
  refine ⟨?_, ?_, ?_⟩
  · exact (pool_idle_eviction 1000).1 0 scenarioBTrace (by decide)
  · exact ((pool_idle_eviction 1000).2.1 scenarioBPool 0 "k"
      ({ engineId := 0, refCount := 0, idleTimer := some 1000 }) 1000 [(1700, Op.tick)]
      (by decide) (by decide) (by decide) (by decide) (by decide)
      (by decide) (by decide)).1
  · exact ((pool_idle_eviction 1000).2.2 scenarioBPool 0 "k"
      ({ engineId := 0, refCount := 0, idleTimer := some 1000 }) 1000 [] 500 []
      (by decide) (by decide) (by decide) (by decide) (by decide)
      (by decide) (by decide)).1

theorem entryOf_removeEntry_self {l : List (String × Entry)}
    (hnd : (l.map Prod.fst).Nodup) (k : String) :
    entryOf (removeEntry l k) k = none := by
  induction l with
  | nil => simp [removeEntry, entryOf]
  | cons p rest ih =>
    obtain ⟨k2, e2⟩ := p
    simp only [List.map_cons, List.nodup_cons] at hnd
    by_cases hk : k2 = k
    · subst hk
      rw [show removeEntry ((k2, e2) :: rest) k2 = rest from by simp [removeEntry]]
      exact entryOf_eq_none_iff.mpr hnd.1
    · rw [show removeEntry ((k2, e2) :: rest) k = (k2, e2) :: removeEntry rest k from by
        simp [removeEntry, hk]]
      simp only [entryOf, if_neg hk]
      exact ih hnd.2

theorem keys_nodup_fireTimer {s : PoolState} (k : String)
    (hnd : (s.entries.map Prod.fst).Nodup) :
    ((fireTimer s k).entries.map Prod.fst).Nodup := by
  rcases fireTimer_cases s k with hc | ⟨e, _, _, hc⟩
  · rwa [hc]
  · rw [hc]
    exact hnd.sublist (List.Sublist.map _ (removeEntry_sublist _ _))

theorem mem_disposed_foldl_inv {ks : List String} {s : PoolState} {x : Nat}
    (hnd : (s.entries.map Prod.fst).Nodup)
    (h : x ∈ (ks.foldl fireTimer s).disposedIds) :
    x ∈ s.disposedIds ∨ ∃ k2 ∈ ks, ∃ e2, entryOf s.entries k2 = some e2 ∧
      e2.engineId = x ∧ ¬(0 < e2.refCount) := by
  induction ks generalizing s with
  | nil => exact Or.inl (by simpa using h)
  | cons k2 rest ih =>
    simp only [List.foldl_cons] at h
    rcases ih (keys_nodup_fireTimer k2 hnd) h with h2 | ⟨k3, hk3, e3, he3, hid, hrc⟩
    · rcases fireTimer_cases s k2 with hc | ⟨e, he, hrc, hc⟩
      · rw [hc] at h2
        exact Or.inl h2
      · rw [hc] at h2
        have h3 : x ∈ s.disposedIds ++ [e.engineId] := h2
        rcases List.mem_append.mp h3 with h4 | h4
        · exact Or.inl h4
        · simp only [List.mem_singleton] at h4
          exact Or.inr ⟨k2, List.mem_cons_self _ _, e, he, h4.symm, hrc⟩
    · rcases fireTimer_cases s k2 with hc | ⟨e, he, hrc2, hc⟩
      · rw [hc] at he3
        exact Or.inr ⟨k3, List.mem_cons_of_mem _ hk3, e3, he3, hid, hrc⟩
      · rw [hc] at he3
        have he4 : entryOf (removeEntry s.entries k2) k3 = some e3 := he3
        by_cases hkk : k3 = k2
        · subst hkk
          rw [entryOf_removeEntry_self hnd] at he4
          exact absurd he4 (by simp)
        · rw [entryOf_removeEntry_ne _ _ _ hkk] at he4
          exact Or.inr ⟨k3, List.mem_cons_of_mem _ hk3, e3, he4, hid, hrc⟩

theorem disposed_fireDue_inv {t : Nat} {s : PoolState} {x : Nat}
    (hnd : (s.entries.map Prod.fst).Nodup)
    (h : x ∈ (fireDue t s).disposedIds) :
    x ∈ s.disposedIds ∨ ∃ k2 e2, entryOf s.entries k2 = some e2 ∧ e2.engineId = x ∧
      ¬(0 < e2.refCount) ∧ ∃ ft, e2.idleTimer = some ft ∧ ft ≤ t := by
  rcases mem_disposed_foldl_inv hnd h with h2 | ⟨k2, hk2, e2, he2, hid, hrc⟩
  · exact Or.inl h2
  · refine Or.inr ⟨k2, e2, he2, hid, hrc, ?_⟩
    simp only [dueKeys, List.mem_map] at hk2
    obtain ⟨p, hp, hpk⟩ := hk2
    obtain ⟨k3, e3⟩ := p
    simp only at hpk
    have hpf := List.mem_filter.mp hp
    rw [hpk] at hpf
    have he3 : entryOf s.entries k2 = some e3 := entryOf_eq_of_mem_nodup hnd hpf.1
    rw [he2] at he3
    injection he3 with he3
    subst he3
    have hdue : (match e2.idleTimer with
        | some ft => decide (ft ≤ t)
        | none => false) = true := hpf.2
    cases hti : e2.idleTimer with
    | none => rw [hti] at hdue; simp at hdue
    | some ft =>
      rw [hti] at hdue
      simp only [decide_eq_true_eq] at hdue
      exact ⟨ft, rfl, hdue⟩

/-- C5.  EnginePool entry invariant: along any well-matched trace from the
empty pool, an entry with refCount > 0 never has a pending disposal timer;
and at every well-matched step, the instance held by an entry is disposed
(and leaves the pool) at that step exactly when the step's time has reached
the entry's scheduled timer while its refCount is still 0. -/
theorem pool_entry_invariant (d : Nat) :
    (∀ t0 tr, validFrom d PoolState.empty t0 tr = true →
        ∀ p ∈ (run d PoolState.empty tr).entries,
          0 < p.2.refCount → p.2.idleTimer = none) ∧
    (∀ s t op k e, WF s → validOp s t op = true → entryOf s.entries k = some e →
        (e.engineId ∈ (stepAt d s (t, op)).disposedIds ↔
          e.refCount = 0 ∧ ∃ ft, e.idleTimer = some ft ∧ ft ≤ t) ∧
        (e.engineId ∈ (stepAt d s (t, op)).disposedIds →
          e.engineId ∉ idsOf (stepAt d s (t, op)).entries)) := by
  refine ⟨?_, ?_⟩
  · intro t0 tr hv
    exact (wf_run wf_empty hv).2.2.2.2.1
  · intro s t op k e hwf hv he
    refine ⟨⟨?_, ?_⟩, ?_⟩
    · intro hd
      rw [disposed_stepAt] at hd
      rcases disposed_fireDue_inv hwf.1 hd with h2 | ⟨k2, e2, he2, hid, hrc, ft, hti, hft⟩
      · exact absurd h2 (wf_entry_not_disposed hwf he)
      · have hidsnd : (idsOf s.entries).Nodup := (List.nodup_append.mp hwf.2.1).1
        have hmap : ((s.entries.map fun p : String × Entry => p.2.engineId)).Nodup := by
          simpa [idsOf] using hidsnd
        have heq : (k2, e2) = (k, e) :=
          List.inj_on_of_nodup_map hmap (entryOf_mem he2) (entryOf_mem he)
            (by simpa using hid)
        have he2e : e2 = e := congrArg Prod.snd heq
        rw [he2e] at hti hrc
        have hnn : (0 : Int) ≤ e.refCount := hwf.2.2.2.2.2 (k, e) (entryOf_mem he)
        exact ⟨by omega, ft, hti, hft⟩
    · rintro ⟨hrc, ft, hti, hft⟩
      rw [disposed_stepAt]
      exact fireDue_disposes he hti hft (by omega)
    · intro hd
      exact wf_disposed_not_entry (wf_stepAt d hwf hv) hd

/-- Witness for `pool_entry_invariant`: the two-step trace acquire/release
of key "k" from the empty pool, and the timer firing at time 1700 on the
Scenario-B pool. -/
theorem pool_entry_invariant_witness :
    (∀ p ∈ (run 1000 PoolState.empty
        [(0, Op.acquire "k"), (0, Op.release "k")]).entries,
      0 < p.2.refCount → p.2.idleTimer = none) ∧
    (0 ∈ (stepAt 1000 scenarioBPool (1700, Op.tick)).disposedIds ↔
      (0 : Int) = 0 ∧ ∃ ft, (some 1000 : Option Nat) = some ft ∧ ft ≤ 1700) := by
  constructor
  · exact (pool_entry_invariant 1000).1 0
      [(0, Op.acquire "k"), (0, Op.release "k")] (by decide)
  · exact ((pool_entry_invariant 1000).2 scenarioBPool 1700 Op.tick "k"
      ({ engineId := 0, refCount := 0, idleTimer := some 1000 })
      (by decide) (by decide) (by decide)).1

end EnginePool

namespace SessionAudio

theorem flushLoopStep_fields (s : AudioSession) :
    (flushLoopStep s).maxPendingAudioChunks = s.maxPendingAudioChunks ∧
    (flushLoopStep s).droppedAudioChunks = s.droppedAudioChunks ∧
    (flushLoopStep s).pendingAudioChunks.length ≤ s.pendingAudioChunks.length := by
  unfold flushLoopStep
  split_ifs with h
  · refine ⟨rfl, rfl, ?_⟩
    rw [List.length_tail]
    omega
  · exact ⟨rfl, rfl, le_refl _⟩

theorem handleAudioChunk_cases (s : AudioSession) (c : Nat) :
    (s.state = SState.running ∧ s.settingsLoaded = true ∧ s.enginesPresent = true ∧
      s.maxPendingAudioChunks ≤ s.pendingAudioChunks.length ∧
      handleAudioChunk s c = { s with droppedAudioChunks := s.droppedAudioChunks + 1 }) ∨
    (handleAudioChunk s c).droppedAudioChunks = s.droppedAudioChunks := by
  unfold handleAudioChunk
  dsimp only
  split_ifs with h1 h2 h3 h4
  · exact Or.inr rfl
  · exact Or.inr rfl
  · simp only [not_or, not_not, Bool.not_eq_false] at h1 h2
    exact Or.inl ⟨h1.1, h1.2, h2, h3, rfl⟩
  · exact Or.inr (flushLoopStep_fields _).2.1
  · exact Or.inr rfl

theorem resumePush_dropped (s : AudioSession) (ok : Bool) :
    (resumePush s ok).droppedAudioChunks = s.droppedAudioChunks := by
  unfold resumePush
  split_ifs with h1 h2
  · rfl
  · exact (flushLoopStep_fields _).2.1
  · exact (flushLoopStep_fields _).2.1

theorem disposeAudio_dropped (s : AudioSession) :
    (disposeAudio s).droppedAudioChunks = s.droppedAudioChunks := by
  unfold disposeAudio
  split_ifs <;> rfl

theorem audioStep_max (s : AudioSession) (ev : AudioEvent) :
    (audioStep s ev).maxPendingAudioChunks = s.maxPendingAudioChunks := by
  cases ev with
  | arrive c =>
    show (handleAudioChunk s c).maxPendingAudioChunks = s.maxPendingAudioChunks
    unfold handleAudioChunk
    dsimp only
    split_ifs <;> first | rfl | exact (flushLoopStep_fields _).1
  | resume ok =>
    show (resumePush s ok).maxPendingAudioChunks = s.maxPendingAudioChunks
    unfold resumePush
    split_ifs <;> first | rfl | exact (flushLoopStep_fields _).1
  | disposeEv =>
    show (disposeAudio s).maxPendingAudioChunks = s.maxPendingAudioChunks
    unfold disposeAudio
    split_ifs <;> rfl

theorem audioStep_length {s : AudioSession} (ev : AudioEvent)
    (h : s.pendingAudioChunks.length ≤ s.maxPendingAudioChunks) :
    (audioStep s ev).pendingAudioChunks.length ≤ s.maxPendingAudioChunks := by
  cases ev with
  | arrive c =>
    show (handleAudioChunk s c).pendingAudioChunks.length ≤ s.maxPendingAudioChunks
    unfold handleAudioChunk
    dsimp only
    split_ifs with h1 h2 h3 h4
    · exact h
    · exact h
    · exact h
    · refine le_trans (flushLoopStep_fields _).2.2 ?_
      simp only [List.length_append, List.length_singleton]
      omega
    · simp only [List.length_append, List.length_singleton]
      omega
  | resume ok =>
    show (resumePush s ok).pendingAudioChunks.length ≤ s.maxPendingAudioChunks
    unfold resumePush
    split_ifs with h1 h2
    · exact h
    · exact le_trans (flushLoopStep_fields _).2.2 h
    · exact le_trans (flushLoopStep_fields _).2.2 h
  | disposeEv =>
    show (disposeAudio s).pendingAudioChunks.length ≤ s.maxPendingAudioChunks
    unfold disposeAudio
    split_ifs with h1
    · exact h
    · simp

theorem audioStep_dropped_mono (s : AudioSession) (ev : AudioEvent) :
    s.droppedAudioChunks ≤ (audioStep s ev).droppedAudioChunks := by
  cases ev with
  | arrive c =>
    rcases handleAudioChunk_cases s c with ⟨_, _, _, _, heq⟩ | heq
    · show s.droppedAudioChunks ≤ (handleAudioChunk s c).droppedAudioChunks
      rw [heq]
      exact Nat.le_succ _
    · show s.droppedAudioChunks ≤ (handleAudioChunk s c).droppedAudioChunks
      rw [heq]
  | resume ok =>
    show s.droppedAudioChunks ≤ (resumePush s ok).droppedAudioChunks
    rw [resumePush_dropped]
  | disposeEv =>
    show s.droppedAudioChunks ≤ (disposeAudio s).droppedAudioChunks
    rw [disposeAudio_dropped]

theorem audioRun_max (s : AudioSession) (evs : List AudioEvent) :
    (audioRun s evs).maxPendingAudioChunks = s.maxPendingAudioChunks := by
  induction evs generalizing s with
  | nil => rfl
  | cons ev rest ih =>
    show (audioRun (audioStep s ev) rest).maxPendingAudioChunks = s.maxPendingAudioChunks
    rw [ih, audioStep_max]

theorem audioRun_length {s : AudioSession} (evs : List AudioEvent)
    (h : s.pendingAudioChunks.length ≤ s.maxPendingAudioChunks) :
    (audioRun s evs).pendingAudioChunks.length ≤ s.maxPendingAudioChunks := by
  induction evs generalizing s with
  | nil => exact h
  | cons ev rest ih =>
    show (audioRun (audioStep s ev) rest).pendingAudioChunks.length ≤ s.maxPendingAudioChunks
    have h2 : (audioStep s ev).pendingAudioChunks.length ≤
        (audioStep s ev).maxPendingAudioChunks := by
      rw [audioStep_max]
      exact audioStep_length ev h
    have := ih h2
    rwa [audioStep_max] at this

/-- C3.  Audio backpressure: from the post-Init state the queue length never
exceeds `maxPendingAudioChunks` under any event sequence; the dropped-chunk
counter never decreases; a chunk arriving while the queue is full increments
the counter by exactly one and leaves the queue untouched (the arriving
chunk is the one dropped, queued chunks are never evicted); and the counter
changes only in that situation. -/
theorem audio_backpressure (m : Nat) :
    (∀ evs, (audioRun (initialAudio m) evs).pendingAudioChunks.length ≤ m) ∧
    (∀ s ev, s.pendingAudioChunks.length ≤ s.maxPendingAudioChunks →
        (audioStep s ev).pendingAudioChunks.length ≤
          (audioStep s ev).maxPendingAudioChunks) ∧
    (∀ s ev, s.droppedAudioChunks ≤ (audioStep s ev).droppedAudioChunks) ∧
    (∀ s c, s.state = SState.running → s.settingsLoaded = true → s.enginesPresent = true →
        s.maxPendingAudioChunks ≤ s.pendingAudioChunks.length →
        audioStep s (AudioEvent.arrive c) =
          { s with droppedAudioChunks := s.droppedAudioChunks + 1 }) ∧
    (∀ s ev, (audioStep s ev).droppedAudioChunks ≠ s.droppedAudioChunks →
        ∃ c, ev = AudioEvent.arrive c ∧ s.state = SState.running ∧
          s.settingsLoaded = true ∧ s.enginesPresent = true ∧
          s.maxPendingAudioChunks ≤ s.pendingAudioChunks.length ∧
          (audioStep s ev).droppedAudioChunks = s.droppedAudioChunks + 1 ∧
          (audioStep s ev).pendingAudioChunks = s.pendingAudioChunks) := by
  refine ⟨?_, ?_, audioStep_dropped_mono, ?_, ?_⟩
  · intro evs
    have h0 : (initialAudio m).pendingAudioChunks.length ≤
        (initialAudio m).maxPendingAudioChunks := by simp [initialAudio]
    have := audioRun_length evs h0
    simpa [initialAudio] using this
  · intro s ev h
    rw [audioStep_max]
    exact audioStep_length ev h
  · intro s c hst hset heng hfull
    show handleAudioChunk s c = { s with droppedAudioChunks := s.droppedAudioChunks + 1 }
    unfold handleAudioChunk
    rw [if_neg (by simp [hst, hset]), if_neg (by simp [heng]), if_pos hfull]
  · intro s ev hne
    cases ev with
    | arrive c =>
      rcases handleAudioChunk_cases s c with ⟨h1, h2, h3, h4, heq⟩ | heq
      · refine ⟨c, rfl, h1, h2, h3, h4, ?_, ?_⟩
        · show (handleAudioChunk s c).droppedAudioChunks = s.droppedAudioChunks + 1
          rw [heq]
        · show (handleAudioChunk s c).pendingAudioChunks = s.pendingAudioChunks
          rw [heq]
      · exact absurd heq hne
    | resume ok => exact absurd (resumePush_dropped s ok) hne
    | disposeEv => exact absurd (disposeAudio_dropped s) hne

set_option maxRecDepth 40000 in
/-- Witness for `audio_backpressure`: the Scenario C state, whose queue is
full, so one more arriving chunk is dropped and the queue is untouched. -/
theorem audio_backpressure_witness :
    (audioRun (initialAudio 10) scenarioCEvents).pendingAudioChunks.length ≤ 10 ∧
    audioStep scenarioCFinal (AudioEvent.arrive 99) =
      { scenarioCFinal with
          droppedAudioChunks := scenarioCFinal.droppedAudioChunks + 1 } := by
  constructor
  · exact (audio_backpressure 10).1 scenarioCEvents
  · exact (audio_backpressure 10).2.2.2.1 scenarioCFinal 99
      (by decide) (by decide) (by decide) (by decide)

set_option maxRecDepth 40000 in
/-- C2 counterexample: in Scenario C (`maxPendingAudioChunks = 10`, 30
chunks arrive, `pushAudio` never settles) the dropped counter ends at 19,
not 20: the flush loop removes the first accepted chunk from the queue and
parks it in the never-resolving `pushAudio`, so 11 chunks are accepted
before the queue is full. -/
theorem scenarioC_dropped_ne_twenty : scenarioCFinal.droppedAudioChunks ≠ 20 := by decide

set_option maxRecDepth 400000 in
/-- C2 (amended): in Scenario C the queue length reaches 10 after the 11th
chunk and stays there (stabilizes at 10), 11 chunks are accepted (one of
them in flight in the stuck `pushAudio`), and `droppedAudioChunks` reaches
19. -/
theorem scenarioC_queue_and_dropped :
    scenarioCFinal.pendingAudioChunks.length = 10 ∧
    scenarioCFinal.droppedAudioChunks = 19 ∧
    scenarioCFinal.receivedAudioChunks = 11 ∧
    ((List.range 20).all fun j =>
      (audioRun (initialAudio 10)
          (scenarioCEvents.take (11 + j))).pendingAudioChunks.length == 10) = true := by
  decide

end SessionAudio

namespace Transcript

theorem transRun_emitted (cfg : TransCfg) (evs : List SegmentEvent) :
    ∀ s : TransState,
      ((transRun cfg s evs).emitted.map TranscriptMsg.revision =
        s.emitted.map TranscriptMsg.revision ++
          List.range' (s.revision + 1) (evs.countP fun ev => ev.guardsOk)) ∧
      (transRun cfg s evs).revision =
        s.revision + (evs.countP fun ev => ev.guardsOk) := by
  induction evs with
  | nil => intro s; simp [transRun]
  | cons ev rest ih =>
    intro s
    by_cases hg : ev.guardsOk = false
    · have hstep : handleAsrSegment cfg s ev = s := by
        simp [handleAsrSegment, hg]
      have hcount : ((ev :: rest).countP fun e => e.guardsOk) =
          rest.countP fun e => e.guardsOk := by
        simp [List.countP_cons, hg]
      constructor
      · show (transRun cfg (handleAsrSegment cfg s ev) rest).emitted.map
            TranscriptMsg.revision = _
        rw [hstep, hcount]
        exact (ih s).1
      · show (transRun cfg (handleAsrSegment cfg s ev) rest).revision = _
        rw [hstep, hcount]
        exact (ih s).2
    · have hg2 : ev.guardsOk = true := by
        revert hg; cases ev.guardsOk <;> simp
      have hcount : ((ev :: rest).countP fun e => e.guardsOk) =
          (rest.countP fun e => e.guardsOk) + 1 := by
        simp [List.countP_cons, hg2]
      have hstep : handleAsrSegment cfg s ev =
          { revision := s.revision + 1,
            emitted := s.emitted ++
              [{ text := ev.text,
                 translatedText :=
                   if cfg.translationEnabled && (ev.isFinal || cfg.partialTranslation) = true
                   then ev.translateResult else none,
                 isFinal := ev.isFinal, revision := s.revision + 1 }] } := by
        simp [handleAsrSegment, hg2]
      obtain ⟨ih1, ih2⟩ := ih (handleAsrSegment cfg s ev)
      constructor
      · show (transRun cfg (handleAsrSegment cfg s ev) rest).emitted.map
            TranscriptMsg.revision = _
        rw [ih1, hstep, hcount]
        simp only [List.map_append, List.map_cons, List.map_nil]
        rw [List.range'_succ]
        simp [List.append_assoc]
      · show (transRun cfg (handleAsrSegment cfg s ev) rest).revision = _
        rw [ih2, hstep, hcount]
        dsimp only
        omega

/-- C6.  Transcript revisions: for any translation configuration and any
sequence of recognition-engine segments (each possibly skipping translation,
translating successfully, or failing to translate), the revisions carried by
the emitted `TRANSCRIPT_UPDATE`s are exactly the sequence 1, 2, 3, … with
one entry per segment that passed the entry guard — strictly increasing, no
gaps, no repeats. -/
theorem transcript_revisions (cfg : TransCfg) (evs : List SegmentEvent) :
    (transRun cfg TransState.init evs).emitted.map TranscriptMsg.revision =
      List.range' 1 (evs.countP fun ev => ev.guardsOk) := by
  have h := (transRun_emitted cfg evs TransState.init).1
  simpa [TransState.init] using h

end Transcript

namespace SessionLife

theorem disposeF_disposed (postOk : Bool) (reason : String) (n : Nat) (s : Session)
    (h : s.isDisposed = true) : disposeF postOk reason n s = (s, []) := by
  cases n with
  | zero => rfl
  | succ m => simp [disposeF, h]

theorem not_mem_applyEffects_onClosed (reg : List String) (effs : List Effect)
    (id : String) :
    id ∉ Manager.applyEffects reg (effs ++ [Effect.onClosed id]) := by
  intro hmem
  rw [Manager.applyEffects, List.foldl_append] at hmem
  simp [Manager.applyEffect, List.mem_filter] at hmem

theorem dispose_eq (postOk : Bool) (reason : String) {s : Session}
    (h : s.isDisposed = false) :
    dispose postOk reason s =
      ({ s with
          isDisposed := true,
          state := SessionAudio.SState.closed,
          portBound := false,
          pendingAudioChunks := [],
          engines := none },
        Effect.unbindPort ::
          ((match s.engines with
            | some keys => [Effect.releaseAsr keys.1, Effect.releaseTranslator keys.2]
            | none => []) ++
            ((if postOk then [Effect.post (MsgOut.sessionStopped reason)]
              else [Effect.postFailure (MsgOut.sessionStopped reason)]) ++
              [Effect.onClosed s.sessionId]))) := by
  cases hp : postOk with
  | true => simp [dispose, disposeF, h]
  | false =>
    have hinner := disposeF_disposed false "post_failed" 1
      ({ s with
          isDisposed := true,
          state := SessionAudio.SState.closed,
          portBound := false,
          pendingAudioChunks := [],
          engines := none }) rfl
    simp [dispose, disposeF, h, hinner]

theorem disposeF_fuel (postOk : Bool) (reason : String) {n : Nat} (hn : 1 ≤ n)
    (s : Session) : disposeF postOk reason n s = dispose postOk reason s := by
  by_cases h : s.isDisposed = true
  · rw [disposeF_disposed _ _ _ _ h, dispose, disposeF_disposed _ _ _ _ h]
  · have hf : s.isDisposed = false := by revert h; cases s.isDisposed <;> simp
    cases n with
    | zero => omega
    | succ m =>
      have hinner1 := disposeF_disposed postOk "post_failed" m
        ({ s with
            isDisposed := true,
            state := SessionAudio.SState.closed,
            portBound := false,
            pendingAudioChunks := [],
            engines := none }) rfl
      have hinner2 := disposeF_disposed postOk "post_failed" 1
        ({ s with
            isDisposed := true,
            state := SessionAudio.SState.closed,
            portBound := false,
            pendingAudioChunks := [],
            engines := none }) rfl
      simp [dispose, disposeF, hf, hinner1, hinner2]

/-- C10.  During dispose the disposed flag is set before the stopped
notification is posted, so when posting throws and the channel-write
failure handler re-enters `dispose`, that inner call hits the `isDisposed`
guard and returns immediately with no effects, at any recursion depth:
dispose terminates with a result independent of the fuel bound, and the
cleanup (port unbound, queue cleared, pool releases, stopped-post attempt,
registry removal) is performed exactly once. -/
theorem dispose_reentrant_guard (s : Session) (reason : String) (n : Nat)
    (h : s.isDisposed = false) (hn : 1 ≤ n) :
    (∀ m reason2, disposeF false reason2 m (dispose false reason s).1 =
        ((dispose false reason s).1, [])) ∧
    disposeF false reason n s = dispose false reason s ∧
    (dispose false reason s).2 =
      Effect.unbindPort ::
        ((match s.engines with
          | some keys => [Effect.releaseAsr keys.1, Effect.releaseTranslator keys.2]
          | none => []) ++
          ([Effect.postFailure (MsgOut.sessionStopped reason)] ++
            [Effect.onClosed s.sessionId])) ∧
    (dispose false reason s).1.isDisposed = true ∧
    (dispose false reason s).1.pendingAudioChunks = [] := by
  have heq := dispose_eq false reason h
  refine ⟨?_, disposeF_fuel false reason hn s, ?_, ?_, ?_⟩
  · intro m reason2
    refine disposeF_disposed false reason2 m _ ?_
    rw [heq]
  · rw [heq]
    rfl
  · rw [heq]
  · rw [heq]

/-- Witness for `dispose_reentrant_guard`: the concrete live session, with
the channel dead (every post throws). -/
theorem dispose_reentrant_guard_witness :
    disposeF false "x" 5 witnessSession = dispose false "x" witnessSession ∧
    (dispose false "x" witnessSession).1.isDisposed = true ∧
    disposeF false "y" 3 (dispose false "x" witnessSession).1 =
      ((dispose false "x" witnessSession).1, []) := by
  have h := dispose_reentrant_guard witnessSession "x" 5 (by decide) (by decide)
  exact ⟨h.2.1, h.2.2.2.1, h.1 3 "y"⟩

/-- C9.  Disposal is idempotent and complete: the first dispose call on a
live session marks it disposed and closed, unbinds the channel, empties the
pending-audio queue without flushing it (no push effect occurs), releases
the recognition and translation pool handles exactly once each, attempts
the stopped notification (best-effort: posted, or a logged failure), and
hands the session id to the manager's removal callback so it leaves the
registry; a second dispose call is a no-op with no effects. -/
theorem dispose_idempotent_complete (s : Session) (postOk : Bool) (reason : String)
    (ak tk : String) (h : s.isDisposed = false) (he : s.engines = some (ak, tk)) :
    (dispose postOk reason s).1.isDisposed = true ∧
    (dispose postOk reason s).1.portBound = false ∧
    (dispose postOk reason s).1.pendingAudioChunks = [] ∧
    (dispose postOk reason s).1.engines = none ∧
    (dispose postOk reason s).2 =
      Effect.unbindPort ::
        ([Effect.releaseAsr ak, Effect.releaseTranslator tk] ++
          ((if postOk then [Effect.post (MsgOut.sessionStopped reason)]
            else [Effect.postFailure (MsgOut.sessionStopped reason)]) ++
            [Effect.onClosed s.sessionId])) ∧
    (∀ reg, s.sessionId ∉ Manager.applyEffects reg (dispose postOk reason s).2) ∧
    (∀ postOk2 reason2, dispose postOk2 reason2 (dispose postOk reason s).1 =
        ((dispose postOk reason s).1, [])) := by
  have heq := dispose_eq postOk reason h
  have heff : (dispose postOk reason s).2 =
      Effect.unbindPort ::
        ([Effect.releaseAsr ak, Effect.releaseTranslator tk] ++
          ((if postOk then [Effect.post (MsgOut.sessionStopped reason)]
            else [Effect.postFailure (MsgOut.sessionStopped reason)]) ++
            [Effect.onClosed s.sessionId])) := by
    rw [heq]
    simp [he]
  refine ⟨by rw [heq], by rw [heq], by rw [heq], by rw [heq], heff, ?_, ?_⟩
  · intro reg
    rw [heff]
    have h2 := not_mem_applyEffects_onClosed reg
      (Effect.unbindPort ::
        ([Effect.releaseAsr ak, Effect.releaseTranslator tk] ++
          (if postOk then [Effect.post (MsgOut.sessionStopped reason)]
            else [Effect.postFailure (MsgOut.sessionStopped reason)])))
      s.sessionId
    simpa using h2
  · intro postOk2 reason2
    refine disposeF_disposed postOk2 reason2 2 _ ?_
    rw [heq]

/-- Witness for `dispose_idempotent_complete`: the concrete live session
with engines acquired, on a healthy channel. -/
theorem dispose_idempotent_complete_witness :
    (dispose true "stop" witnessSession).2 =
      Effect.unbindPort ::
        ([Effect.releaseAsr "asr-key", Effect.releaseTranslator "tr-key"] ++
          ([Effect.post (MsgOut.sessionStopped "stop")] ++
            [Effect.onClosed "7:0"])) ∧
    "7:0" ∉ Manager.applyEffects ["7:0", "9:1"] (dispose true "stop" witnessSession).2 ∧
    dispose false "again" (dispose true "stop" witnessSession).1 =
      ((dispose true "stop" witnessSession).1, []) := by
  have h := dispose_idempotent_complete witnessSession true "stop" "asr-key" "tr-key"
    (by decide) (by decide)
  exact ⟨h.2.2.2.2.1, h.2.2.2.2.2.1 ["7:0", "9:1"], h.2.2.2.2.2.2 false "again"⟩

/-- C7.  Scenario D: an Init carrying a protocol version different from
`VT_CHANNEL_VERSION` makes the session post a fatal `VERSION_MISMATCH`
session error followed by the `SESSION_STOPPED` notification, dispose
itself, and hand its id to the manager's removal callback, after which the
registry no longer contains the session. -/
theorem version_mismatch_teardown (msg : InitMessage) (outcome : AsrInitOutcome)
    (ak tk : String) (s : Session) (reg : List String)
    (hv : msg.version ≠ VT_CHANNEL_VERSION)
    (hip : s.initInProgress = false) (hd : s.isDisposed = false) :
    postedMessages (handleSessionInit true msg outcome ak tk s).2 =
      [MsgOut.sessionError "VERSION_MISMATCH" true,
        MsgOut.sessionStopped "version_mismatch"] ∧
    (handleSessionInit true msg outcome ak tk s).1.isDisposed = true ∧
    s.sessionId ∉
      Manager.applyEffects reg (handleSessionInit true msg outcome ak tk s).2 := by
  have hd0 : ({ s with initInProgress := true } : Session).isDisposed = false := hd
  have heq := dispose_eq true "version_mismatch" hd0
  have hinit : handleSessionInit true msg outcome ak tk s =
      ({ (dispose true "version_mismatch" ({ s with initInProgress := true })).1 with
          initInProgress := false },
        [Effect.post (MsgOut.sessionError "VERSION_MISMATCH" true)] ++
          (dispose true "version_mismatch" ({ s with initInProgress := true })).2) := by
    simp [handleSessionInit, hip, hv, safePostF]
  refine ⟨?_, ?_, ?_⟩
  · rw [hinit, heq]
    cases s.engines <;> simp [postedMessages]
  · rw [hinit]
    show ({ (dispose true "version_mismatch"
        ({ s with initInProgress := true })).1 with
        initInProgress := false }).isDisposed = true
    rw [heq]
  · rw [hinit, heq]
    have h2 := not_mem_applyEffects_onClosed reg
      (Effect.post (MsgOut.sessionError "VERSION_MISMATCH" true) ::
        Effect.unbindPort ::
          ((match s.engines with
            | some keys => [Effect.releaseAsr keys.1, Effect.releaseTranslator keys.2]
            | none => []) ++
            [Effect.post (MsgOut.sessionStopped "version_mismatch")]))
      s.sessionId
    simpa using h2

/-- Witness for `version_mismatch_teardown`: the concrete live session
receiving an Init with version 2 (the expected constant is 1), with the
session registered in a registry. -/
theorem version_mismatch_teardown_witness :
    postedMessages (handleSessionInit true ({ version := 2, isLive := true })
        AsrInitOutcome.ok "a" "t" witnessSession).2 =
      [MsgOut.sessionError "VERSION_MISMATCH" true,
        MsgOut.sessionStopped "version_mismatch"] ∧
    "7:0" ∉ Manager.applyEffects ["7:0"]
      (handleSessionInit true ({ version := 2, isLive := true })
        AsrInitOutcome.ok "a" "t" witnessSession).2 := by
  have h := version_mismatch_teardown ({ version := 2, isLive := true })
    AsrInitOutcome.ok "a" "t" witnessSession ["7:0"] (by decide) (by decide) (by decide)
  exact ⟨h.1, h.2.2⟩

end SessionLife

namespace Manager

/-- C8.  Scenario A with `maxSessions = 1`: attaching a channel for a fresh
identity A creates and registers a session; attaching a channel for a
distinct fresh identity B while A is registered posts a fatal
`MAX_SESSIONS_REACHED` error to the channel and disconnects it, creating no
registry entry; after A's session is disposed (its `onClosed` removal
applied to the registry), attaching B succeeds. -/
theorem max_sessions_scenario (tA fA tB fB : Nat) (sA : SessionLife.Session)
    (hid : sA.sessionId = sessionIdOf tA fA)
    (hnd : sA.isDisposed = false)
    (hne : sessionIdOf tA fA ≠ sessionIdOf tB fB) :
    (attachPort ({ sessions := [], maxSessions := 1 }) (some tA) fA).2 =
      [MgrEffect.createdSession (sessionIdOf tA fA)] ∧
    (attachPort ({ sessions := [], maxSessions := 1 }) (some tA) fA).1.sessions =
      [sessionIdOf tA fA] ∧
    (attachPort (attachPort ({ sessions := [], maxSessions := 1 }) (some tA) fA).1
        (some tB) fB).2 =
      [MgrEffect.postToPort
          (SessionLife.MsgOut.sessionError "MAX_SESSIONS_REACHED" true),
        MgrEffect.disconnectPort] ∧
    (attachPort (attachPort ({ sessions := [], maxSessions := 1 }) (some tA) fA).1
        (some tB) fB).1.sessions = [sessionIdOf tA fA] ∧
    applyEffects [sessionIdOf tA fA] (SessionLife.dispose true "tab_closed" sA).2 = [] ∧
    (attachPort ({ sessions := [], maxSessions := 1 }) (some tB) fB).2 =
      [MgrEffect.createdSession (sessionIdOf tB fB)] ∧
    (attachPort ({ sessions := [], maxSessions := 1 }) (some tB) fB).1.sessions =
      [sessionIdOf tB fB] := by
  have h1 : attachPort ({ sessions := [], maxSessions := 1 }) (some tA) fA =
      ({ sessions := [sessionIdOf tA fA], maxSessions := 1 },
        [MgrEffect.createdSession (sessionIdOf tA fA)]) := by
    simp [attachPort]
  have h1b : attachPort ({ sessions := [], maxSessions := 1 }) (some tB) fB =
      ({ sessions := [sessionIdOf tB fB], maxSessions := 1 },
        [MgrEffect.createdSession (sessionIdOf tB fB)]) := by
    simp [attachPort]
  have h2 : attachPort ({ sessions := [sessionIdOf tA fA], maxSessions := 1 })
      (some tB) fB =
      (({ sessions := [sessionIdOf tA fA], maxSessions := 1 } : ManagerState),
        [MgrEffect.postToPort
            (SessionLife.MsgOut.sessionError "MAX_SESSIONS_REACHED" true),
          MgrEffect.disconnectPort]) := by
    simp [attachPort, Ne.symm hne]
  have h3 : applyEffects [sessionIdOf tA fA]
      (SessionLife.dispose true "tab_closed" sA).2 = [] := by
    rw [SessionLife.dispose_eq true "tab_closed" hnd]
    cases sA.engines <;> simp [applyEffects, applyEffect, hid]
  exact ⟨by rw [h1], by rw [h1], by rw [h1, h2], by rw [h1, h2], h3,
    by rw [h1b], by rw [h1b]⟩

/-- Witness for `max_sessions_scenario`: identities 7:0 and 2:0, with the
concrete live session holding identity 7:0. -/
theorem max_sessions_scenario_witness :
    (attachPort ({ sessions := [], maxSessions := 1 }) (some 7) 0).1.sessions =
      [sessionIdOf 7 0] ∧
    (attachPort (attachPort ({ sessions := [], maxSessions := 1 }) (some 7) 0).1
        (some 2) 0).2 =
      [MgrEffect.postToPort
          (SessionLife.MsgOut.sessionError "MAX_SESSIONS_REACHED" true),
        MgrEffect.disconnectPort] ∧
    applyEffects [sessionIdOf 7 0]
      (SessionLife.dispose true "tab_closed" SessionLife.witnessSession).2 = [] ∧
    (attachPort ({ sessions := [], maxSessions := 1 }) (some 2) 0).1.sessions =
      [sessionIdOf 2 0] := by
  have h := max_sessions_scenario 7 0 2 0 SessionLife.witnessSession
    (by decide) (by decide) (by decide)
  exact ⟨h.2.1, h.2.2.1, h.2.2.2.2.1, h.2.2.2.2.2.2⟩

end Manager

end LinguaRelay
